import Mathlib

/- Verification development for the editorial/shopping backend (src/main.py,
src/schemas.py).  The embedding models the query-string handling of the
redirect manager (urllib parse_qs, urlencode, urlparse, urlunparse at the
decoded character level), the document store handlers, and the HTTP error
discipline of the FastAPI routes. -/

/-- Lowercase every character, as Python str.lower does on scheme text. -/
def toLowerC (s : List Char) : List Char := s.map Char.toLower

/-- Split a character list at the first occurrence of sep: the prefix before
sep and the suffix after it, or none when sep does not occur.  Models Python
str.split(sep, 1) and str.find based splitting. -/
def splitFirstC (sep : Char) : List Char → Option (List Char × List Char)
  | [] => none
  | c :: t =>
    if c = sep then some ([], t)
    else
      match splitFirstC sep t with
      | none => none
      | some p => some (c :: p.1, p.2)

/-- Model of Python str.split(sep): split at every occurrence; the empty
string yields a single empty piece. -/
def splitAllC (sep : Char) : List Char → List (List Char)
  | [] => [[]]
  | c :: t =>
    match splitAllC sep t with
    | [] => [[c]]
    | h :: r => if c = sep then [] :: h :: r else (c :: h) :: r

/-- Concatenate pieces with sep between them (Python str.join). -/
def joinC (sep : Char) : List (List Char) → List Char
  | [] => []
  | [x] => x
  | x :: y :: r => x ++ sep :: joinC sep (y :: r)

/-- Split at the first character belonging to stop, keeping the stop
character with the remainder (models the netloc delimiter scan of urllib). -/
def splitAtFirstOfC (stop : List Char) : List Char → List Char × List Char
  | [] => ([], [])
  | c :: t =>
    if c ∈ stop then ([], c :: t)
    else
      let p := splitAtFirstOfC stop t
      (c :: p.1, p.2)

/-- Model of one field of urllib parse_qsl with default settings
(keep_blank_values false, strict_parsing false): an empty field is skipped, a
field without an equals sign is skipped, a field whose value part is empty is
skipped, otherwise the field splits at its first equals sign.  Percent and
plus decoding are not modelled: the embedding works with queries at the
decoded character level, which is exact for queries free of escapes. -/
def parseField (f : List Char) : Option (List Char × List Char) :=
  if f = [] then none
  else
    match splitFirstC '=' f with
    | none => none
    | some kv => if kv.2 = [] then none else some kv

/-- Model of urllib parse_qsl: split the query at ampersands, parse each
field. -/
def parse_qslC (qs : List Char) : List (List Char × List Char) :=
  (splitAllC '&' qs).filterMap parseField

/-- Insertion ordered dictionary from parameter names to value lists, the
model of the Python dict returned by parse_qs. -/
abbrev QDict := List (List Char × List (List Char))

/-- Append one parsed pair into the dictionary: an existing key gets the new
value appended to its list in place, a new key is added at the end.  This is
how parse_qs accumulates its dict. -/
def qsAppendC (d : QDict) (k : List Char) (v : List Char) : QDict :=
  match d with
  | [] => [(k, [v])]
  | e :: t => if e.1 = k then (e.1, e.2 ++ [v]) :: t else e :: qsAppendC t k v

/-- Model of urllib parse_qs: group the parse_qsl pairs into an insertion
ordered dict of value lists. -/
def parse_qsC (qs : List Char) : QDict :=
  (parse_qslC qs).foldl (fun d kv => qsAppendC d kv.1 kv.2) []

/-- Python dict membership test (key in q). -/
def qsContainsC (d : QDict) (k : List Char) : Bool :=
  d.any (fun e => e.1 = k)

/-- Python dict assignment q[k] = vs: replace the value of an existing key in
place, or append a new key at the end. -/
def qsSetC (d : QDict) (k : List Char) (vs : List (List Char)) : QDict :=
  match d with
  | [] => [(k, vs)]
  | e :: t => if e.1 = k then (k, vs) :: t else e :: qsSetC t k vs

/-- Lookup in the grouped dict (first matching entry). -/
def lookupQ : QDict → List Char → Option (List (List Char))
  | [], _ => none
  | e :: t, k => if e.1 = k then some e.2 else lookupQ t k

/-- Lookup in a pair list such as the result of parse_qsl (first match). -/
def lookupPairs : List (List Char × List Char) → List Char → Option (List Char)
  | [], _ => none
  | e :: t, k => if e.1 = k then some e.2 else lookupPairs t k

/-- Model of the final line of the merge in redirect_link: urlencode applied
to the comprehension taking v[0] of each value list (every value stored in
the dict at that point is a list, so the isinstance branch always takes the
head).  Percent encoding is not modelled, matching the decoded level of
parse_qslC. -/
def urlencodeFirstsC (d : QDict) : List Char :=
  joinC '&' (d.map (fun e => e.1 ++ '=' :: e.2.headD []))

/-- A Link document as stored in the link collection, following the Link
schema of src/schemas.py.  Optional fields cover both a stored null and an
absent key, which dict.get treats identically.  oid stands for the Mongo
identity field. -/
structure LinkDoc where
  slug : String
  target : Option String := none
  source : Option String := none
  utm_campaign : Option String := none
  utm_source : Option String := none
  utm_medium : Option String := none
  oid : Option String := none
deriving DecidableEq

/-- The dict.get access link.get(key) for the three attribution keys of the
injection loop in redirect_link. -/
def linkUtm (l : LinkDoc) (key : String) : Option String :=
  if key = "utm_source" then l.utm_source
  else if key = "utm_medium" then l.utm_medium
  else if key = "utm_campaign" then l.utm_campaign
  else none

/-- Python truthiness of an optional string: None and the empty string are
falsy. -/
def optTruthy : Option String → Bool
  | none => false
  | some s => !(s == "")

/-- The key list iterated by the injection loop of redirect_link. -/
def utmKeys : List String := ["utm_source", "utm_medium", "utm_campaign"]

/-- One iteration of the injection loop: if key not in q and link.get(key) is
truthy then q[key] = [link.get(key)]. -/
def injectStep (l : LinkDoc) (d : QDict) (key : String) : QDict :=
  if qsContainsC d key.data = false ∧ optTruthy (linkUtm l key) = true then
    qsSetC d key.data [((linkUtm l key).getD "").data]
  else d

/-- The whole injection loop over the three attribution keys. -/
def injectUtmsC (l : LinkDoc) (d : QDict) : QDict :=
  utmKeys.foldl (injectStep l) d

/-- The query-string transformation performed by redirect_link on the query
component of the target URL: parse_qs, inject missing attribution keys,
re-serialize with urlencode taking the first value of each list. -/
def mergeQueryC (l : LinkDoc) (qs : List Char) : List Char :=
  urlencodeFirstsC (injectUtmsC l (parse_qsC qs))

/-- Invariant of one grouped dict entry: the key holds no equals sign and no
ampersand, the value list is non-empty, and its head value holds no
ampersand and is non-empty.  Every dict reaching urlencode in the merge
satisfies this, which makes the serialized query re-parseable. -/
def CleanEntry (e : List Char × List (List Char)) : Prop :=
  '=' ∉ e.1 ∧ '&' ∉ e.1 ∧ e.2 ≠ [] ∧ '&' ∉ e.2.headD [] ∧ e.2.headD [] ≠ []

/-- Invariant of the whole grouped dict: distinct keys, clean entries. -/
def QDictOK (d : QDict) : Prop :=
  (d.map Prod.fst).Nodup ∧ ∀ e ∈ d, CleanEntry e

/-- An optional link value free of ampersands.  The real code percent
encodes ampersands through urlencode and decodes them back through
parse_qs; that encoding layer is modelled as the identity, which is exact
for values without the escaped characters. -/
def optNoAmp : Option String → Bool
  | none => true
  | some s => decide ('&' ∉ s.data)

/-- All three attribution values of a link are ampersand free. -/
def linkCleanAmp (l : LinkDoc) : Bool :=
  optNoAmp l.utm_source && optNoAmp l.utm_medium && optNoAmp l.utm_campaign

/-- Character free of tab, carriage return and newline (the characters that
urlparse removes from its input). -/
def noCtlChar (c : Char) : Bool :=
  !(c == Char.ofNat 9 || c == Char.ofNat 13 || c == Char.ofNat 10)

/-- String free of the removed control characters. -/
def noCtl (s : List Char) : Bool := s.all noCtlChar

/-- An optional link value clean enough for the full URL round trip: no
ampersand, no hash, no removed control character. -/
def optCleanFull : Option String → Bool
  | none => true
  | some s => s.data.all (fun c => noCtlChar c && !(c == '&' || c == '#'))

/-- All three attribution values of a link are fully clean. -/
def linkCleanFull (l : LinkDoc) : Bool :=
  optCleanFull l.utm_source && optCleanFull l.utm_medium && optCleanFull l.utm_campaign

/-- The characters of the three attribution values of a link. -/
def utmVals (l : LinkDoc) : List Char :=
  (l.utm_source.getD "").data ++ (l.utm_medium.getD "").data ++
    (l.utm_campaign.getD "").data

/-- The component record returned by urllib urlparse: scheme, netloc, path,
params, query, fragment. -/
structure URLParts where
  scheme : List Char := []
  netloc : List Char := []
  path : List Char := []
  params : List Char := []
  query : List Char := []
  fragment : List Char := []
deriving DecidableEq

/-- Characters allowed after the first letter of a URL scheme. -/
def schemeCharOk (c : Char) : Bool :=
  c.isAlphanum || c == '+' || c == '-' || c == '.'

/-- The uses_params list of urllib: schemes whose path may carry semicolon
parameters. -/
def usesParams : List (List Char) :=
  [[], "ftp".data, "hdl".data, "prospero".data, "http".data, "imap".data,
   "https".data, "shttp".data, "rtsp".data, "rtspu".data, "sip".data,
   "sips".data, "snews".data, "tel".data, "fax".data, "sftp".data]

/-- Model of the params split of urlparse (_splitparams): search for a
semicolon after the last slash of the path portion, or anywhere when the
path has no slash, and split there. -/
def splitParamsC (u : List Char) : List Char × List Char :=
  if '/' ∈ u then
    match splitFirstC '/' u.reverse with
    | none => (u, [])
    | some p =>
      let afterSlash := p.1.reverse
      let beforeSlash := p.2.reverse
      match splitFirstC ';' afterSlash with
      | none => (u, [])
      | some q2 => (beforeSlash ++ '/' :: q2.1, q2.2)
  else
    match splitFirstC ';' u with
    | none => (u, [])
    | some q2 => (q2.1, q2.2)

/-- Model of urllib urlparse with default arguments: strip leading control
and space characters, remove tab, carriage return and newline, detect the
scheme, split the netloc after a double slash, split the fragment at the
first hash, the query at the first question mark, and the params at a
semicolon for schemes that use them.  The bracketed IPv6 validation error is
not modelled (no claim concerns it). -/
def urlparseC (url0 : List Char) : URLParts :=
  let url1 := url0.dropWhile (fun c => c.toNat ≤ 32)
  let url2 := url1.filter noCtlChar
  let sp :=
    match splitFirstC ':' url2 with
    | none => (([] : List Char), url2)
    | some p =>
      match p.1 with
      | [] => ([], url2)
      | c :: _ =>
        if c.isAlpha && p.1.all schemeCharOk then (toLowerC p.1, p.2)
        else ([], url2)
  let scheme := sp.1
  let np :=
    match sp.2 with
    | '/' :: '/' :: r => splitAtFirstOfC ['/', '?', '#'] r
    | rest => ([], rest)
  let netloc := np.1
  let fp :=
    match splitFirstC '#' np.2 with
    | none => (np.2, ([] : List Char))
    | some p => (p.1, p.2)
  let qp :=
    match splitFirstC '?' fp.1 with
    | none => (fp.1, ([] : List Char))
    | some p => (p.1, p.2)
  let pp :=
    if scheme ∈ usesParams ∧ ';' ∈ qp.1 then splitParamsC qp.1
    else (qp.1, [])
  { scheme := scheme, netloc := netloc, path := pp.1, params := pp.2,
    query := qp.2, fragment := fp.2 }

/-- Model of urllib urlunsplit. -/
def urlunsplitC (scheme netloc url query fragment : List Char) : List Char :=
  let u1 :=
    if netloc ≠ [] ∨ url.take 2 = ['/', '/'] then
      let u0 := if url ≠ [] ∧ url.take 1 ≠ ['/'] then '/' :: url else url
      '/' :: '/' :: (netloc ++ u0)
    else url
  let u2 := if scheme ≠ [] then scheme ++ ':' :: u1 else u1
  let u3 := if query ≠ [] then u2 ++ '?' :: query else u2
  if fragment ≠ [] then u3 ++ '#' :: fragment else u3

/-- Model of urllib urlunparse: re-attach the params to the path, then
unsplit. -/
def urlunparseC (p : URLParts) : List Char :=
  let u := if p.params ≠ [] then p.path ++ ';' :: p.params else p.path
  urlunsplitC p.scheme p.netloc u p.query p.fragment

/-- The URL computation of redirect_link on a non-empty target string:
urlparse the target, merge the query, urlunparse preserving scheme, netloc,
path, params and fragment. -/
def resolveUrl (l : LinkDoc) (target : String) : String :=
  let parsed := urlparseC target.data
  (urlunparseC { parsed with query := mergeQueryC l parsed.query }).asString

/-- Well-formedness of parsed URL components, sufficient for the unparse
then reparse round trip: a non-empty lowercase scheme, a non-empty netloc
free of its delimiters, a path that is empty or absolute and free of query,
fragment and params delimiters, params free of slash, query and fragment
delimiters and only for schemes that use them on a non-empty path, a query
free of the fragment delimiter, and no removed control characters
anywhere.  Every https or http URL of the ordinary shape satisfies this,
and the predicate is decidable so that concrete instances evaluate. -/
def WFParts (p : URLParts) : Prop :=
  p.scheme ≠ [] ∧
  (p.scheme.headD ' ').isLower = true ∧
  (∀ c ∈ p.scheme,
    c.isLower = true ∨ c.isDigit = true ∨ c = '+' ∨ c = '-' ∨ c = '.') ∧
  p.netloc ≠ [] ∧
  (∀ c ∈ p.netloc, c ≠ '/' ∧ c ≠ '?' ∧ c ≠ '#' ∧ noCtlChar c = true) ∧
  (p.path = [] ∨ p.path.headD ' ' = '/') ∧
  (∀ c ∈ p.path, c ≠ '?' ∧ c ≠ '#' ∧ c ≠ ';' ∧ noCtlChar c = true) ∧
  (∀ c ∈ p.params, c ≠ '?' ∧ c ≠ '#' ∧ c ≠ '/' ∧ noCtlChar c = true) ∧
  (p.params = [] ∨ (p.path ≠ [] ∧ p.scheme ∈ usesParams)) ∧
  (∀ c ∈ p.query, c ≠ '#' ∧ noCtlChar c = true) ∧
  (∀ c ∈ p.fragment, noCtlChar c = true)

instance (p : URLParts) : Decidable (WFParts p) := by
  unfold WFParts
  infer_instance

/-- Python values as they occur in stored documents; vOid is a bson ObjectId
carrying its canonical lowercase hex text. -/
inductive PyVal where
  | vStr (s : String)
  | vOid (hex : String)
  | vInt (n : Int)
  | vBool (b : Bool)
  | vNone
deriving DecidableEq

/-- Python str applied to a stored value: str of an ObjectId is its hex
text. -/
def pyStr : PyVal → String
  | .vStr s => s
  | .vOid h => h
  | .vInt n => toString n
  | .vBool b => if b then "True" else "False"
  | .vNone => "None"

/-- A stored document: an insertion ordered dictionary. -/
abbrev PyDoc := List (String × PyVal)

/-- Python dict lookup doc[k] as an option (first matching entry). -/
def docLookup : PyDoc → String → Option PyVal
  | [], _ => none
  | e :: t, k => if e.1 = k then some e.2 else docLookup t k

/-- Python membership test k in doc. -/
def docContains (d : PyDoc) (k : String) : Bool :=
  d.any (fun e => e.1 = k)

/-- Python dict assignment d[k] = v: replace the first matching entry in
place, or append a new one. -/
def dictSetFirst (d : PyDoc) (k : String) (v : PyVal) : PyDoc :=
  match d with
  | [] => [(k, v)]
  | e :: t => if e.1 = k then (k, v) :: t else e :: dictSetFirst t k v

/-- Model of the _safe_id utility of src/main.py: a falsy (empty) document is
returned as is; otherwise the document is copied and, when an _id key is
present, its value is replaced by its str form. -/
def safe_id (doc : PyDoc) : PyDoc :=
  if doc = [] then doc
  else if docContains doc "_id" then
    dictSetFirst doc "_id"
      (PyVal.vStr (pyStr ((docLookup doc "_id").getD PyVal.vNone)))
  else doc

deriving instance DecidableEq for Except

/-- An HTTP error response as produced by raising HTTPException. -/
structure HTTPError where
  status : Nat
  detail : String
deriving DecidableEq

/-- A raised Python exception: either an HTTPException or any other
exception carrying its message. -/
inductive PyExc where
  | httpExc (e : HTTPError)
  | otherExc (msg : String)
deriving DecidableEq

/-- Python str of an exception: starlette HTTPException prints as
status colon detail; other exceptions print their message. -/
def pyExcStr : PyExc → String
  | .httpExc e => toString e.status ++ ": " ++ e.detail
  | .otherExc m => m

/-- The handler pattern try ... except Exception as e: raise
HTTPException(500, str(e)).  Note that HTTPException is itself a subclass of
Exception, so an HTTPException raised inside the body is also converted to a
500 by this wrapper. -/
def catchAll500 {α : Type} : Except PyExc α → Except HTTPError α
  | .ok a => .ok a
  | .error e => .error ⟨500, pyExcStr e⟩

/-- The handler pattern with an except HTTPException: raise clause before
the blanket clause, as used by create_link and delete_wishlist_item. -/
def catchHTTPElse500 {α : Type} : Except PyExc α → Except HTTPError α
  | .ok a => .ok a
  | .error (.httpExc e) => .error e
  | .error (.otherExc m) => .error ⟨500, m⟩

/-- A Click document per the Click schema of src/schemas.py. -/
structure ClickDoc where
  link_slug : String
  referrer : Option String := none
  user_agent : Option String := none
  ip : Option String := none
deriving DecidableEq

/-- The persistence state: the collections touched by the modelled
handlers. -/
structure Store where
  products : List PyDoc := []
  articles : List PyDoc := []
  links : List LinkDoc := []
  clicks : List ClickDoc := []
deriving DecidableEq

/-- The LinkIn request model of src/main.py (slug and target required). -/
structure LinkIn where
  slug : String
  target : String
  utm_campaign : Option String := none
  utm_source : Option String := none
  utm_medium : Option String := none
  source : Option String := none
deriving DecidableEq

/-- link.model_dump() as stored by create_document. -/
def linkInDump (l : LinkIn) : LinkDoc :=
  { slug := l.slug, target := some l.target, source := l.source,
    utm_campaign := l.utm_campaign, utm_source := l.utm_source,
    utm_medium := l.utm_medium }

/-- Modelled from the spec: create_document of database.py (absent from
src/) inserts the document into the named collection, assigns a unique
opaque identifier and returns it as a string (spec section 4.1).  Here for
the link collection. -/
def create_document_link (st : Store) (d : LinkDoc) : Store × String :=
  ({ st with links := st.links ++ [d] }, toString st.links.length)

/-- Modelled from the spec: create_document for the click collection
(append only audit trail, spec sections 3 and 4.1). -/
def create_document_click (st : Store) (d : ClickDoc) : Store :=
  { st with clicks := st.clicks ++ [d] }

/-- Model of the create_link handler: pre-check slug uniqueness with
find_one, raise a 400 on collision, otherwise insert; HTTPException is
re-raised unchanged, other exceptions become a 500. -/
def create_link (st : Store) (l : LinkIn) : Store × Except HTTPError String :=
  let body : Store × Except PyExc String :=
    match st.links.find? (fun d => d.slug = l.slug) with
    | some _ => (st, .error (.httpExc ⟨400, "Slug already exists"⟩))
    | none =>
      let r := create_document_link st (linkInDump l)
      (r.1, .ok r.2)
  (body.1, catchHTTPElse500 body.2)

/-- model_dump style view of a stored link document, used for the get_link
response body. -/
def optVal : Option String → PyVal
  | some s => .vStr s
  | none => .vNone

/-- The stored link document as a Python dict (the Mongo identity entry
first when present). -/
def linkDump (d : LinkDoc) : PyDoc :=
  (match d.oid with
   | some h => [("_id", PyVal.vOid h)]
   | none => []) ++
  [("slug", PyVal.vStr d.slug), ("target", optVal d.target),
   ("source", optVal d.source), ("utm_campaign", optVal d.utm_campaign),
   ("utm_source", optVal d.utm_source), ("utm_medium", optVal d.utm_medium)]

/-- Model of the get_link handler: find_one by slug, raise 404 when
missing, return the document with _safe_id; the whole body sits inside a
blanket except Exception that converts any exception, including the
internal 404 HTTPException, into a 500. -/
def get_link (st : Store) (slug : String) : Except HTTPError PyDoc :=
  catchAll500
    (match st.links.find? (fun d => d.slug = slug) with
     | none => .error (.httpExc ⟨404, "Link not found"⟩)
     | some d => .ok (safe_id (linkDump d)))

/-- Model of the get_article handler, same blanket except pattern. -/
def get_article (st : Store) (slug : String) : Except HTTPError PyDoc :=
  catchAll500
    (match st.articles.find? (fun d => docLookup d "slug" = some (PyVal.vStr slug)) with
     | none => .error (.httpExc ⟨404, "Article not found"⟩)
     | some d => .ok (safe_id d))

/-- Hex digit test for ObjectId validation. -/
def isHexChar (c : Char) : Bool :=
  c.isDigit || ('a' ≤ c && c ≤ 'f') || ('A' ≤ c && c ≤ 'F')

/-- bson ObjectId accepts a 24 character hex string. -/
def isValidObjectId (s : String) : Bool :=
  s.length == 24 && s.data.all isHexChar

/-- Model of the get_product handler: ObjectId(product_id) raises on a
malformed id, find_one by identity compares the canonical lowercase hex,
missing raises 404; the blanket except converts every raised exception,
including the 404, into a 500. -/
def get_product (st : Store) (pid : String) : Except HTTPError PyDoc :=
  catchAll500
    (if !isValidObjectId pid then
      .error (.otherExc (pid ++ " is not a valid ObjectId"))
     else
      match st.products.find? (fun d => docLookup d "_id" = some (PyVal.vOid pid.toLower)) with
      | none => .error (.httpExc ⟨404, "Product not found"⟩)
      | some d => .ok (safe_id d))

/-- The fixed shape analytics report. -/
structure SummaryCounts where
  products : Nat
  articles : Nat
  collections : Nat
  links : Nat
  clicks : Nat
  subscribers : Nat
deriving DecidableEq

/-- Modelled from the spec: the shared database handle of database.py
(absent from src/) is None when the store is unavailable (spec sections 5
and 9: the connection degrades to a documented not initialized state); when
available it yields each collection count.  count(col) in
analytics_summary returns db[col].count_documents({}) if db is not None
else 0. -/
def countDocuments (db : Option (String → Nat)) (col : String) : Nat :=
  match db with
  | some f => f col
  | none => 0

/-- Model of the analytics_summary handler. -/
def analytics_summary (db : Option (String → Nat)) : Except HTTPError SummaryCounts :=
  catchAll500 (.ok
    { products := countDocuments db "product",
      articles := countDocuments db "article",
      collections := countDocuments db "collection",
      links := countDocuments db "link",
      clicks := countDocuments db "click",
      subscribers := countDocuments db "subscriber" })

/-- The request data read by redirect_link: the referer and user-agent
headers (None when absent) and the client host. -/
structure RequestInfo where
  referer : Option String := none
  user_agent : Option String := none
  client_host : Option String := none
deriving DecidableEq

/-- The click_data document built by redirect_link. -/
def mkClick (slug : String) (req : RequestInfo) : ClickDoc :=
  { link_slug := slug, referrer := req.referer,
    user_agent := req.user_agent, ip := req.client_host }

/-- Modelled from the spec: get_documents of database.py (absent from src/)
returns up to limit documents matching the filter, in store order (spec
section 4.1). -/
def get_documents_links (st : Store) (slug : String) (limit : Nat) : List LinkDoc :=
  (st.links.filter (fun d => d.slug = slug)).take limit

/-- Model of the redirect_link handler: resolve the slug with get_documents
(limit 1), 404 when no match; record a click inside a try whose except
clause swallows every failure (clickFails models the write raising); then
check the target (400 when falsy, that is missing or empty) and finally
build the merged redirect URL.  The success value is the URL of the 307
RedirectResponse. -/
def redirect_link (clickFails : Bool) (st : Store) (slug : String)
    (req : RequestInfo) : Store × Except HTTPError String :=
  match get_documents_links st slug 1 with
  | [] => (st, .error ⟨404, "Link not found"⟩)
  | link :: _ =>
    let st1 := if clickFails then st else create_document_click st (mkClick slug req)
    match link.target with
    | none => (st1, .error ⟨400, "Link target missing"⟩)
    | some t =>
      if t = "" then (st1, .error ⟨400, "Link target missing"⟩)
      else (st1, .ok (resolveUrl link t))

/-- Following the words of the specification claims, not the code: the
parameters as they appear textually in a query string, keeping empty values
(a field without an equals sign carries the empty value).  Under this
reading a parameter with an empty value still appears in the query string.
Used only to state counterexamples against claims as literally written. -/
def textualParams (qs : List Char) : List (List Char × List Char) :=
  (splitAllC '&' qs).filterMap (fun f =>
    if f = [] then none
    else
      match splitFirstC '=' f with
      | none => some (f, [])
      | some kv => some kv)

/-- When sep does not occur, splitFirstC finds nothing. -/
theorem splitFirstC_of_not_mem {sep : Char} {l : List Char} (h : sep ∉ l) :
    splitFirstC sep l = none := by
  induction l with
  | nil => rfl
  | cons c t ih =>
    simp only [List.mem_cons, not_or] at h
    simp [splitFirstC, Ne.symm h.1, ih h.2]

/-- splitFirstC splits at the first occurrence of sep. -/
theorem splitFirstC_append {sep : Char} {a b : List Char} (h : sep ∉ a) :
    splitFirstC sep (a ++ sep :: b) = some (a, b) := by
  induction a with
  | nil => simp [splitFirstC]
  | cons c t ih =>
    simp only [List.mem_cons, not_or] at h
    simp [splitFirstC, Ne.symm h.1, ih h.2]

/-- Inversion of a successful splitFirstC. -/
theorem splitFirstC_eq_some {sep : Char} {l a b : List Char}
    (h : splitFirstC sep l = some (a, b)) :
    l = a ++ sep :: b ∧ sep ∉ a := by
  induction l generalizing a b with
  | nil => cases h
  | cons c t ih =>
    by_cases hc : c = sep
    · subst hc
      simp only [splitFirstC, if_pos rfl, if_true, eq_self_iff_true,
        Option.some.injEq, Prod.mk.injEq] at h
      rcases h with ⟨rfl, rfl⟩
      simp
    · simp only [splitFirstC, if_neg hc] at h
      cases hsp : splitFirstC sep t with
      | none => rw [hsp] at h; cases h
      | some p =>
        rw [hsp] at h
        simp only [Option.some.injEq, Prod.mk.injEq] at h
        obtain ⟨ht, hna⟩ := ih (a := p.1) (b := p.2) (by rw [hsp])
        rcases h with ⟨rfl, rfl⟩
        constructor
        · rw [ht]
          rfl
        · simp only [List.mem_cons, not_or]
          exact ⟨Ne.symm hc, hna⟩

/-- When sep occurs, splitFirstC succeeds. -/
theorem splitFirstC_isSome_of_mem {sep : Char} {l : List Char} (h : sep ∈ l) :
    ∃ p, splitFirstC sep l = some p := by
  induction l with
  | nil => cases h
  | cons c t ih =>
    by_cases hc : c = sep
    · exact ⟨([], t), by simp [splitFirstC, hc]⟩
    · have hm : sep ∈ t := by
        rcases List.mem_cons.mp h with h1 | h1
        · exact absurd h1.symm hc
        · exact h1
      obtain ⟨p, hp⟩ := ih hm
      exact ⟨(c :: p.1, p.2), by simp [splitFirstC, if_neg hc, hp]⟩

/-- splitAllC never returns the empty list of pieces. -/
theorem splitAllC_ne_nil {sep : Char} {l : List Char} : splitAllC sep l ≠ [] := by
  cases l with
  | nil => simp [splitAllC]
  | cons c t =>
    simp only [splitAllC]
    cases hsb : splitAllC sep t with
    | nil => simp
    | cons h r =>
      by_cases hc : c = sep
      · simp [hc]
      · simp [hc]

/-- A separator-free string is a single piece. -/
theorem splitAllC_of_not_mem {sep : Char} {l : List Char} (h : sep ∉ l) :
    splitAllC sep l = [l] := by
  induction l with
  | nil => rfl
  | cons c t ih =>
    simp only [List.mem_cons, not_or] at h
    simp [splitAllC, ih h.2, Ne.symm h.1]

/-- splitAllC peels the piece before the first separator. -/
theorem splitAllC_append {sep : Char} {a b : List Char} (h : sep ∉ a) :
    splitAllC sep (a ++ sep :: b) = a :: splitAllC sep b := by
  induction a with
  | nil =>
    simp only [List.nil_append, splitAllC]
    cases hsb : splitAllC sep b with
    | nil => exact absurd hsb splitAllC_ne_nil
    | cons h2 r => simp
  | cons c t ih =>
    simp only [List.mem_cons, not_or] at h
    simp only [List.cons_append, splitAllC, List.append_eq]
    rw [ih h.2]
    simp [Ne.symm h.1]

/-- Joining the pieces of splitAllC restores the string. -/
theorem joinC_splitAllC {sep : Char} {l : List Char} :
    joinC sep (splitAllC sep l) = l := by
  induction l with
  | nil => rfl
  | cons c t ih =>
    simp only [splitAllC]
    cases hsb : splitAllC sep t with
    | nil => exact absurd hsb splitAllC_ne_nil
    | cons h2 r =>
      rw [hsb] at ih
      by_cases hc : c = sep
      · subst hc
        simp only [if_pos rfl]
        cases r with
        | nil => simp [joinC] at ih ⊢; exact ih
        | cons h3 r2 => simp [joinC] at ih ⊢; exact ih
      · simp only [if_neg hc]
        cases r with
        | nil =>
          simp only [joinC] at ih ⊢
          rw [ih]
        | cons h3 r2 =>
          simp only [joinC, List.cons_append] at ih ⊢
          rw [ih]

/-- A character of a piece is a character of the joined string. -/
theorem mem_joinC_of_mem {sep : Char} {ps : List (List Char)} {p : List Char}
    {c : Char} (hp : p ∈ ps) (hc : c ∈ p) : c ∈ joinC sep ps := by
  induction ps with
  | nil => cases hp
  | cons x xs ih =>
    cases xs with
    | nil =>
      rcases List.mem_cons.mp hp with h | h
      · subst h; simpa [joinC] using hc
      · cases h
    | cons y r =>
      simp only [joinC]
      rcases List.mem_cons.mp hp with h | h
      · subst h; exact List.mem_append.mpr (Or.inl hc)
      · exact List.mem_append.mpr (Or.inr (List.mem_cons_of_mem _ (ih h)))

/-- Characters of a splitAllC piece come from the split string. -/
theorem mem_of_mem_splitAllC {sep : Char} {l p : List Char} {c : Char}
    (hp : p ∈ splitAllC sep l) (hc : c ∈ p) : c ∈ l := by
  have h := @mem_joinC_of_mem sep _ _ _ hp hc
  rwa [joinC_splitAllC] at h

/-- No piece of splitAllC contains the separator. -/
theorem sep_not_mem_splitAllC {sep : Char} {l : List Char} :
    ∀ {p : List Char}, p ∈ splitAllC sep l → sep ∉ p := by
  induction l with
  | nil =>
    intro p hp
    simp only [splitAllC, List.mem_singleton] at hp
    subst hp; simp
  | cons c t ih =>
    intro p hp
    simp only [splitAllC] at hp
    cases hsb : splitAllC sep t with
    | nil => exact absurd hsb splitAllC_ne_nil
    | cons h2 r =>
      simp only [hsb] at hp
      by_cases hc : c = sep
      · rw [if_pos hc] at hp
        rcases List.mem_cons.mp hp with h | h
        · subst h; simp
        · exact ih (by rw [hsb]; exact h)
      · rw [if_neg hc] at hp
        rcases List.mem_cons.mp hp with h | h
        · subst h
          have h2m : sep ∉ h2 := ih (by rw [hsb]; exact List.mem_cons_self h2 r)
          simp only [List.mem_cons, not_or]
          exact ⟨fun hh => hc hh.symm, h2m⟩
        · exact ih (by rw [hsb]; exact List.mem_cons_of_mem _ h)

/-- Building a field from a clean key and non-empty value parses back. -/
theorem parseField_mk {k v : List Char} (hk : '=' ∉ k) (hv : v ≠ []) :
    parseField (k ++ '=' :: v) = some (k, v) := by
  have hne : k ++ '=' :: v ≠ [] := by simp
  unfold parseField
  rw [if_neg hne, splitFirstC_append hk]
  simp [hv]

/-- Inversion of a successful parseField. -/
theorem parseField_eq_some {f : List Char} {kv : List Char × List Char}
    (h : parseField f = some kv) :
    f = kv.1 ++ '=' :: kv.2 ∧ '=' ∉ kv.1 ∧ kv.2 ≠ [] := by
  unfold parseField at h
  by_cases hf : f = []
  · rw [if_pos hf] at h; cases h
  · rw [if_neg hf] at h
    cases hsp : splitFirstC '=' f with
    | none => rw [hsp] at h; cases h
    | some p =>
      simp only [hsp] at h
      by_cases hp2 : p.2 = []
      · rw [if_pos hp2] at h; cases h
      · rw [if_neg hp2] at h
        obtain ⟨hf2, hna⟩ := splitFirstC_eq_some (a := p.1) (b := p.2)
          (by rw [hsp])
        injection h with h2
        subst h2
        exact ⟨hf2, hna, hp2⟩

/-- Every pair produced by parse_qsl has a key free of equals signs and
ampersands and a non-empty value free of ampersands. -/
theorem parse_qslC_clean {qs : List Char} {kv : List Char × List Char}
    (h : kv ∈ parse_qslC qs) :
    '=' ∉ kv.1 ∧ '&' ∉ kv.1 ∧ '&' ∉ kv.2 ∧ kv.2 ≠ [] := by
  unfold parse_qslC at h
  obtain ⟨f, hf, hpf⟩ := List.mem_filterMap.mp h
  obtain ⟨hfe, hk, hv⟩ := parseField_eq_some hpf
  have hamp : '&' ∉ f := sep_not_mem_splitAllC hf
  rw [hfe] at hamp
  simp only [List.mem_append, List.mem_cons, not_or] at hamp
  exact ⟨hk, hamp.1, hamp.2.2, hv⟩

/-- Every character of a parse_qsl pair comes from the query string. -/
theorem parse_qslC_chars {qs : List Char} {kv : List Char × List Char}
    (h : kv ∈ parse_qslC qs) :
    (∀ c ∈ kv.1, c ∈ qs) ∧ ∀ c ∈ kv.2, c ∈ qs := by
  unfold parse_qslC at h
  obtain ⟨f, hf, hpf⟩ := List.mem_filterMap.mp h
  obtain ⟨hfe, _, _⟩ := parseField_eq_some hpf
  constructor
  · intro c hc
    exact mem_of_mem_splitAllC hf (by rw [hfe]; exact List.mem_append.mpr (Or.inl hc))
  · intro c hc
    exact mem_of_mem_splitAllC hf
      (by rw [hfe]; exact List.mem_append.mpr (Or.inr (List.mem_cons_of_mem _ hc)))

/-- Keys of qsAppendC come from the dict or are the appended key. -/
theorem qsAppendC_keys_sub {d : QDict} {k v : List Char} {x : List Char}
    (h : x ∈ (qsAppendC d k v).map Prod.fst) :
    x ∈ d.map Prod.fst ∨ x = k := by
  induction d with
  | nil => simp [qsAppendC] at h; exact Or.inr h
  | cons e t ih =>
    by_cases he : e.1 = k
    · simp only [qsAppendC, if_pos he, List.map_cons, List.mem_cons] at h ⊢
      rcases h with h | h
      · exact Or.inl (Or.inl h)
      · exact Or.inl (Or.inr h)
    · simp only [qsAppendC, if_neg he, List.map_cons, List.mem_cons] at h ⊢
      rcases h with h | h
      · exact Or.inl (Or.inl h)
      · rcases ih h with h2 | h2
        · exact Or.inl (Or.inr h2)
        · exact Or.inr h2

/-- The head of a list extended on the right is unchanged when the list is
non-empty. -/
theorem headD_append_singleton {α : Type} {l : List α} {v x : α} (h : l ≠ []) :
    (l ++ [v]).headD x = l.headD x := by
  cases l with
  | nil => exact absurd rfl h
  | cons a t => rfl

/-- qsAppendC preserves the dict invariant when fed a clean pair. -/
theorem qsAppendC_ok {d : QDict} {k v : List Char} (hd : QDictOK d)
    (hk : '=' ∉ k ∧ '&' ∉ k) (hv : '&' ∉ v ∧ v ≠ []) :
    QDictOK (qsAppendC d k v) := by
  induction d with
  | nil =>
    refine ⟨by simp [qsAppendC], ?_⟩
    intro e he
    simp only [qsAppendC, List.mem_singleton] at he
    subst he
    exact ⟨hk.1, hk.2, by simp, by simpa using hv.1, by simpa using hv.2⟩
  | cons e t ih =>
    obtain ⟨hnd, hcl⟩ := hd
    simp only [List.map_cons, List.nodup_cons] at hnd
    have hdt : QDictOK t := ⟨hnd.2, fun x hx => hcl x (List.mem_cons_of_mem _ hx)⟩
    have hce := hcl e (List.mem_cons_self e t)
    by_cases he : e.1 = k
    · refine ⟨?_, ?_⟩
      · simp only [qsAppendC, if_pos he, List.map_cons, List.nodup_cons]
        exact hnd
      · intro x hx
        simp only [qsAppendC, if_pos he, List.mem_cons] at hx
        rcases hx with hx | hx
        · subst hx
          obtain ⟨c1, c2, c3, c4, c5⟩ := hce
          refine ⟨c1, c2, by simp, ?_, ?_⟩
          · rwa [headD_append_singleton c3]
          · rwa [headD_append_singleton c3]
        · exact hcl x (List.mem_cons_of_mem _ hx)
    · obtain ⟨hnd2, hcl2⟩ := ih hdt
      refine ⟨?_, ?_⟩
      · simp only [qsAppendC, if_neg he, List.map_cons, List.nodup_cons]
        refine ⟨?_, hnd2⟩
        intro hmem
        rcases qsAppendC_keys_sub hmem with h2 | h2
        · exact hnd.1 h2
        · exact he h2
      · intro x hx
        simp only [qsAppendC, if_neg he, List.mem_cons] at hx
        rcases hx with hx | hx
        · subst hx; exact hce
        · exact hcl2 x hx

/-- The parse_qs fold preserves the dict invariant. -/
theorem foldl_qsAppendC_ok {ps : List (List Char × List Char)} {d : QDict}
    (hd : QDictOK d)
    (hps : ∀ kv ∈ ps, '=' ∉ kv.1 ∧ '&' ∉ kv.1 ∧ '&' ∉ kv.2 ∧ kv.2 ≠ []) :
    QDictOK (ps.foldl (fun d kv => qsAppendC d kv.1 kv.2) d) := by
  induction ps generalizing d with
  | nil => exact hd
  | cons kv t ih =>
    simp only [List.foldl_cons]
    have hkv := hps kv (List.mem_cons_self kv t)
    exact ih (qsAppendC_ok hd ⟨hkv.1, hkv.2.1⟩ ⟨hkv.2.2.1, hkv.2.2.2⟩)
      (fun x hx => hps x (List.mem_cons_of_mem _ hx))

/-- The grouped query dict satisfies the invariant. -/
theorem parse_qsC_ok {qs : List Char} : QDictOK (parse_qsC qs) := by
  unfold parse_qsC
  exact foldl_qsAppendC_ok ⟨List.nodup_nil, by simp⟩
    (fun kv hkv => parse_qslC_clean hkv)

/-- A serialized clean entry field contains no ampersand. -/
theorem amp_not_mem_field {e : List Char × List (List Char)} (he : CleanEntry e) :
    '&' ∉ e.1 ++ '=' :: e.2.headD [] := by
  obtain ⟨_, hk2, _, hv1, _⟩ := he
  simp only [List.mem_append, List.mem_cons, not_or]
  exact ⟨hk2, by decide, hv1⟩

/-- Parsing a single clean field. -/
theorem parse_qslC_single {k v : List Char} (hk : '=' ∉ k)
    (hamp : '&' ∉ k ++ '=' :: v) (hv : v ≠ []) :
    parse_qslC (k ++ '=' :: v) = [(k, v)] := by
  unfold parse_qslC
  rw [splitAllC_of_not_mem hamp]
  simp only [List.filterMap_cons, List.filterMap_nil]
  rw [parseField_mk hk hv]

/-- Parsing a clean field followed by an ampersand and a remainder. -/
theorem parse_qslC_cons_field {k v rest : List Char} (hk : '=' ∉ k)
    (hamp : '&' ∉ k ++ '=' :: v) (hv : v ≠ []) :
    parse_qslC ((k ++ '=' :: v) ++ '&' :: rest) = (k, v) :: parse_qslC rest := by
  unfold parse_qslC
  rw [splitAllC_append hamp]
  simp only [List.filterMap_cons]
  rw [parseField_mk hk hv]

/-- Re-parsing the urlencoded dict of clean entries yields exactly the
key and first value pairs, in order. -/
theorem parse_qslC_urlencodeFirstsC {d : QDict} (hd : ∀ e ∈ d, CleanEntry e) :
    parse_qslC (urlencodeFirstsC d) = d.map (fun e => (e.1, e.2.headD [])) := by
  induction d with
  | nil => rfl
  | cons e t ih =>
    have he := hd e (List.mem_cons_self e t)
    have ht := fun x hx => hd x (List.mem_cons_of_mem e hx)
    have hfield := amp_not_mem_field he
    obtain ⟨hk1, _, _, _, hv2⟩ := he
    cases t with
    | nil =>
      have hu : urlencodeFirstsC [e] = e.1 ++ '=' :: e.2.headD [] := by
        simp [urlencodeFirstsC, joinC]
      rw [hu, parse_qslC_single hk1 hfield hv2]
      simp
    | cons e2 t2 =>
      have step : urlencodeFirstsC (e :: e2 :: t2) =
          (e.1 ++ '=' :: e.2.headD []) ++ '&' :: urlencodeFirstsC (e2 :: t2) := by
        simp [urlencodeFirstsC, joinC]
      rw [step, parse_qslC_cons_field hk1 hfield hv2, ih ht]
      simp

/-- Looking a key up among the serialized first values matches the dict
lookup followed by taking the head. -/
theorem lookupPairs_map_firsts {d : QDict} {k : List Char} :
    lookupPairs (d.map (fun e => (e.1, e.2.headD []))) k =
      (lookupQ d k).map (fun vs => vs.headD []) := by
  induction d with
  | nil => rfl
  | cons e t ih =>
    simp only [List.map_cons, lookupPairs, lookupQ]
    by_cases h : e.1 = k
    · rw [if_pos h, if_pos h]
      rfl
    · rw [if_neg h, if_neg h]
      exact ih

/-- Assignment then lookup of the same key. -/
theorem lookupQ_qsSetC_self {d : QDict} {k : List Char} {vs : List (List Char)} :
    lookupQ (qsSetC d k vs) k = some vs := by
  induction d with
  | nil => simp [qsSetC, lookupQ]
  | cons e t ih =>
    by_cases h : e.1 = k
    · simp [qsSetC, if_pos h, lookupQ]
    · simp [qsSetC, if_neg h, lookupQ, ih, h]

/-- Assignment leaves lookups of other keys unchanged. -/
theorem lookupQ_qsSetC_ne {d : QDict} {k k2 : List Char} {vs : List (List Char)}
    (h : k2 ≠ k) :
    lookupQ (qsSetC d k vs) k2 = lookupQ d k2 := by
  induction d with
  | nil =>
    simp only [qsSetC, lookupQ]
    rw [if_neg (fun hh : k = k2 => h hh.symm)]
  | cons e t ih =>
    by_cases he : e.1 = k
    · simp only [qsSetC, if_pos he, lookupQ]
      rw [if_neg (fun hh : k = k2 => h hh.symm), if_neg (by rw [he]; exact fun hh => h hh.symm)]
    · simp only [qsSetC, if_neg he, lookupQ]
      by_cases he2 : e.1 = k2
      · rw [if_pos he2, if_pos he2]
      · rw [if_neg he2, if_neg he2]
        exact ih

/-- Setting an absent key appends it at the end. -/
theorem qsSetC_of_not_contains {d : QDict} {k : List Char} {vs : List (List Char)}
    (h : qsContainsC d k = false) :
    qsSetC d k vs = d ++ [(k, vs)] := by
  induction d with
  | nil => rfl
  | cons e t ih =>
    simp only [qsContainsC, List.any_cons, Bool.or_eq_false_iff,
      decide_eq_false_iff_not] at h
    simp only [qsSetC, if_neg h.1, List.cons_append]
    rw [ih]
    simp [qsContainsC, h.2]

/-- Failed lookup and dict membership agree. -/
theorem lookupQ_eq_none_iff {d : QDict} {k : List Char} :
    lookupQ d k = none ↔ qsContainsC d k = false := by
  induction d with
  | nil => simp [lookupQ, qsContainsC]
  | cons e t ih =>
    simp only [lookupQ, qsContainsC, List.any_cons, Bool.or_eq_false_iff,
      decide_eq_false_iff_not]
    by_cases h : e.1 = k
    · simp [h]
    · simp only [if_neg h]
      rw [ih]
      simp [qsContainsC, h]

/-- Dict membership as key membership. -/
theorem qsContainsC_eq_false_iff {d : QDict} {k : List Char} :
    qsContainsC d k = false ↔ k ∉ d.map Prod.fst := by
  induction d with
  | nil => simp [qsContainsC]
  | cons e t ih =>
    simp only [qsContainsC, List.any_cons, Bool.or_eq_false_iff,
      decide_eq_false_iff_not, List.map_cons, List.mem_cons, not_or]
    rw [show (List.any t fun e => decide (e.1 = k)) = qsContainsC t k from rfl, ih]
    constructor
    · rintro ⟨h1, h2⟩
      exact ⟨fun hh => h1 hh.symm, h2⟩
    · rintro ⟨h1, h2⟩
      exact ⟨fun hh => h1 hh.symm, h2⟩

/-- An injection step does not touch lookups of other keys. -/
theorem injectStep_lookup_ne {l : LinkDoc} {d : QDict} {key : String}
    {k : List Char} (h : k ≠ key.data) :
    lookupQ (injectStep l d key) k = lookupQ d k := by
  unfold injectStep
  split
  · exact lookupQ_qsSetC_ne h
  · rfl

/-- A present key blocks its injection step. -/
theorem injectStep_of_lookup_some {l : LinkDoc} {d : QDict} {key : String}
    {vs : List (List Char)} (h : lookupQ d key.data = some vs) :
    injectStep l d key = d := by
  unfold injectStep
  rw [if_neg]
  rintro ⟨h1, _⟩
  rw [lookupQ_eq_none_iff.mpr h1] at h
  cases h

/-- A falsy link value blocks its injection step. -/
theorem injectStep_of_not_truthy {l : LinkDoc} {d : QDict} {key : String}
    (h : optTruthy (linkUtm l key) = false) :
    injectStep l d key = d := by
  unfold injectStep
  rw [if_neg]
  rintro ⟨_, h2⟩
  rw [h] at h2
  cases h2

/-- An absent key with a truthy link value is injected as a singleton. -/
theorem injectStep_lookup_self_of_none {l : LinkDoc} {d : QDict} {key : String}
    (h : lookupQ d key.data = none) (ht : optTruthy (linkUtm l key) = true) :
    lookupQ (injectStep l d key) key.data =
      some [((linkUtm l key).getD "").data] := by
  unfold injectStep
  rw [if_pos ⟨lookupQ_eq_none_iff.mp h, ht⟩]
  exact lookupQ_qsSetC_self

/-- A successful lookup survives any injection step. -/
theorem injectStep_lookup_some_pres {l : LinkDoc} {d : QDict} {key : String}
    {k : List Char} {vs : List (List Char)} (h : lookupQ d k = some vs) :
    lookupQ (injectStep l d key) k = some vs := by
  by_cases hk : k = key.data
  · subst hk
    rw [injectStep_of_lookup_some h]
    exact h
  · rw [injectStep_lookup_ne hk]
    exact h

/-- A truthy optional string is a concrete non-empty string. -/
theorem optTruthy_eq_true {o : Option String} (h : optTruthy o = true) :
    ∃ s, o = some s ∧ s ≠ "" ∧ s.data ≠ [] := by
  cases o with
  | none => cases h
  | some s =>
    simp only [optTruthy, Bool.not_eq_eq_eq_not, Bool.not_true, beq_eq_false_iff_ne,
      ne_eq] at h
    refine ⟨s, rfl, h, ?_⟩
    intro hd
    apply h
    cases s with
    | mk l =>
      simp only [String.data] at hd
      rw [hd]

/-- The attribution value selected by a key of the loop is ampersand free
for a clean link. -/
theorem linkUtm_clean_amp {l : LinkDoc} {key : String} (hl : linkCleanAmp l = true)
    (hk : key ∈ utmKeys) : optNoAmp (linkUtm l key) = true := by
  simp only [linkCleanAmp, Bool.and_eq_true] at hl
  rcases (by simpa [utmKeys] using hk :
      key = "utm_source" ∨ key = "utm_medium" ∨ key = "utm_campaign") with h | h | h
  · subst h
    simpa [linkUtm] using hl.1.1
  · subst h
    simpa [linkUtm] using hl.1.2
  · subst h
    simpa [linkUtm] using hl.2

/-- The loop keys hold no equals sign and no ampersand. -/
theorem utmKey_clean {key : String} (hk : key ∈ utmKeys) :
    '=' ∉ key.data ∧ '&' ∉ key.data := by
  rcases (by simpa [utmKeys] using hk :
      key = "utm_source" ∨ key = "utm_medium" ∨ key = "utm_campaign") with h | h | h <;>
    subst h <;> exact ⟨by decide, by decide⟩

/-- An injection step preserves the dict invariant for a clean link. -/
theorem injectStep_ok {l : LinkDoc} {d : QDict} {key : String} (hd : QDictOK d)
    (hk : key ∈ utmKeys) (hl : linkCleanAmp l = true) :
    QDictOK (injectStep l d key) := by
  unfold injectStep
  split
  case isTrue h =>
    obtain ⟨hc, ht⟩ := h
    rw [qsSetC_of_not_contains hc]
    obtain ⟨s, hs, _, hs2⟩ := optTruthy_eq_true ht
    have hamp : '&' ∉ s.data := by
      have h2 := linkUtm_clean_amp hl hk
      rw [hs] at h2
      simpa [optNoAmp] using h2
    obtain ⟨hkc1, hkc2⟩ := utmKey_clean hk
    obtain ⟨hnd, hcl⟩ := hd
    constructor
    · rw [List.map_append]
      rw [List.nodup_append]
      refine ⟨hnd, by simp, ?_⟩
      intro x hx
      simp only [List.map_cons, List.map_nil, List.mem_singleton]
      intro hx2
      subst hx2
      exact (qsContainsC_eq_false_iff.mp hc) hx
    · intro e he
      rcases List.mem_append.mp he with h2 | h2
      · exact hcl e h2
      · simp only [List.mem_singleton] at h2
        subst h2
        refine ⟨hkc1, hkc2, by simp, ?_, ?_⟩
        · simpa [hs] using hamp
        · simpa [hs] using hs2
  case isFalse => exact hd

/-- Unfolding the three iterations of the injection loop. -/
theorem injectUtmsC_unfold (l : LinkDoc) (d : QDict) :
    injectUtmsC l d =
      injectStep l (injectStep l (injectStep l d "utm_source") "utm_medium")
        "utm_campaign" := rfl

/-- The whole loop preserves the dict invariant. -/
theorem injectUtmsC_ok {l : LinkDoc} {d : QDict} (hd : QDictOK d)
    (hl : linkCleanAmp l = true) : QDictOK (injectUtmsC l d) := by
  rw [injectUtmsC_unfold]
  exact injectStep_ok
    (injectStep_ok (injectStep_ok hd (by simp [utmKeys]) hl) (by simp [utmKeys]) hl)
    (by simp [utmKeys]) hl

/-- A successful lookup survives the whole loop. -/
theorem injectUtmsC_lookup_some_pres {l : LinkDoc} {d : QDict} {k : List Char}
    {vs : List (List Char)} (h : lookupQ d k = some vs) :
    lookupQ (injectUtmsC l d) k = some vs := by
  rw [injectUtmsC_unfold]
  exact injectStep_lookup_some_pres
    (injectStep_lookup_some_pres (injectStep_lookup_some_pres h))

/-- An absent key with a truthy link value ends up injected by the loop. -/
theorem injectUtmsC_lookup_absent_truthy {l : LinkDoc} {d : QDict} {key : String}
    (hkey : key ∈ utmKeys) (h : lookupQ d key.data = none)
    (ht : optTruthy (linkUtm l key) = true) :
    lookupQ (injectUtmsC l d) key.data =
      some [((linkUtm l key).getD "").data] := by
  rw [injectUtmsC_unfold]
  rcases (by simpa [utmKeys] using hkey :
      key = "utm_source" ∨ key = "utm_medium" ∨ key = "utm_campaign") with h0 | h0 | h0
  · subst h0
    exact injectStep_lookup_some_pres
      (injectStep_lookup_some_pres (injectStep_lookup_self_of_none h ht))
  · subst h0
    have h0l : lookupQ (injectStep l d "utm_source") "utm_medium".data = none := by
      rw [injectStep_lookup_ne (by decide)]
      exact h
    exact injectStep_lookup_some_pres (injectStep_lookup_self_of_none h0l ht)
  · subst h0
    have h0l : lookupQ (injectStep l (injectStep l d "utm_source") "utm_medium")
        "utm_campaign".data = none := by
      rw [injectStep_lookup_ne (by decide), injectStep_lookup_ne (by decide)]
      exact h
    exact injectStep_lookup_self_of_none h0l ht

/-- An absent key with a falsy link value stays absent through the loop. -/
theorem injectUtmsC_lookup_absent_falsy {l : LinkDoc} {d : QDict} {key : String}
    (hkey : key ∈ utmKeys) (h : lookupQ d key.data = none)
    (ht : optTruthy (linkUtm l key) = false) :
    lookupQ (injectUtmsC l d) key.data = none := by
  rw [injectUtmsC_unfold]
  rcases (by simpa [utmKeys] using hkey :
      key = "utm_source" ∨ key = "utm_medium" ∨ key = "utm_campaign") with h0 | h0 | h0
  · subst h0
    rw [injectStep_lookup_ne (by decide), injectStep_lookup_ne (by decide),
      injectStep_of_not_truthy ht]
    exact h
  · subst h0
    rw [injectStep_lookup_ne (by decide), injectStep_of_not_truthy ht,
      injectStep_lookup_ne (by decide)]
    exact h
  · subst h0
    rw [injectStep_of_not_truthy ht, injectStep_lookup_ne (by decide),
      injectStep_lookup_ne (by decide)]
    exact h

/-- Re-parsing the merged query yields the loop dict with first values. -/
theorem parse_qslC_mergeQueryC {l : LinkDoc} {qs : List Char}
    (hl : linkCleanAmp l = true) :
    parse_qslC (mergeQueryC l qs) =
      (injectUtmsC l (parse_qsC qs)).map (fun e => (e.1, e.2.headD [])) := by
  unfold mergeQueryC
  exact parse_qslC_urlencodeFirstsC (injectUtmsC_ok parse_qsC_ok hl).2

/-- C1 (amended): for each attribution key of the loop, looking at the
parsed parameter mapping of the target query (parse_qs drops parameters
whose value is empty): if the key is present there, the resolved query
keeps its first parsed value (destination wins); if it is absent and the
Link carries a non-empty value, the Link value is injected; if it is
absent and the Link value is empty or missing, the key does not occur in
the resolved query.  The linkCleanAmp hypothesis marks the boundary of the
embedding, which models the percent encoding layer as the identity. -/
theorem utm_injection_cases (l : LinkDoc) (qs : String) (key : String)
    (hkey : key ∈ utmKeys) (hl : linkCleanAmp l = true) :
    (∀ vs, lookupQ (parse_qsC qs.data) key.data = some vs →
      lookupPairs (parse_qslC (mergeQueryC l qs.data)) key.data =
        some (vs.headD [])) ∧
    (lookupQ (parse_qsC qs.data) key.data = none →
      optTruthy (linkUtm l key) = true →
      lookupPairs (parse_qslC (mergeQueryC l qs.data)) key.data =
        (linkUtm l key).map (fun s => s.data)) ∧
    (lookupQ (parse_qsC qs.data) key.data = none →
      optTruthy (linkUtm l key) = false →
      lookupPairs (parse_qslC (mergeQueryC l qs.data)) key.data = none) := by
  have hre := @parse_qslC_mergeQueryC l qs.data hl
  refine ⟨?_, ?_, ?_⟩
  · intro vs h
    rw [hre, lookupPairs_map_firsts, injectUtmsC_lookup_some_pres h]
    rfl
  · intro h ht
    rw [hre, lookupPairs_map_firsts, injectUtmsC_lookup_absent_truthy hkey h ht]
    obtain ⟨s, hs, _, _⟩ := optTruthy_eq_true ht
    rw [hs]
    rfl
  · intro h ht
    rw [hre, lookupPairs_map_firsts, injectUtmsC_lookup_absent_falsy hkey h ht]
    rfl

/-- C1 counterexample to the claim as written: in the target query the
parameter utm_source textually appears (with the empty value), yet the code
does not keep that value: parse_qs drops the empty-valued parameter and the
Link value blog is injected, so the resolved query carries utm_source=blog
instead of the unchanged target value. -/
theorem utm_injection_counterexample :
    mergeQueryC { slug := "s", utm_source := some "blog" } "utm_source=".data =
      "utm_source=blog".data ∧
    lookupPairs (textualParams "utm_source=".data) "utm_source".data = some [] ∧
    lookupPairs (parse_qslC ("utm_source=blog".data)) "utm_source".data =
      some "blog".data ∧
    some ("blog".data) ≠ some ([] : List Char) := by decide

/-- C1 witness: a concrete link with utm_source blog and target query a=1:
the key is absent from the parsed target query, the link value is truthy,
and the resolved query indeed carries utm_source=blog. -/
theorem utm_injection_cases_witness :
    ("utm_source" ∈ utmKeys) ∧
    linkCleanAmp { slug := "s", utm_source := some "blog" } = true ∧
    lookupPairs
      (parse_qslC (mergeQueryC { slug := "s", utm_source := some "blog" } "a=1".data))
      "utm_source".data = some "blog".data := by
  refine ⟨by decide, by decide, ?_⟩
  have h := (utm_injection_cases { slug := "s", utm_source := some "blog" }
    "a=1" "utm_source" (by decide) (by decide)).2.1 (by decide) (by decide)
  exact h.trans (by decide)

/-- Appending a pair under an absent key adds a singleton entry at the
end. -/
theorem qsAppendC_of_not_contains {d : QDict} {k v : List Char}
    (h : qsContainsC d k = false) :
    qsAppendC d k v = d ++ [(k, [v])] := by
  induction d with
  | nil => rfl
  | cons e t ih =>
    simp only [qsContainsC, List.any_cons, Bool.or_eq_false_iff,
      decide_eq_false_iff_not] at h
    simp only [qsAppendC, if_neg h.1, List.cons_append]
    rw [ih]
    simp [qsContainsC, h.2]

/-- Membership distributes over dict concatenation. -/
theorem qsContainsC_append {a b : QDict} {k : List Char} :
    qsContainsC (a ++ b) k = (qsContainsC a k || qsContainsC b k) := by
  simp [qsContainsC, List.any_append]

/-- Grouping pairs with pairwise distinct keys yields singleton entries. -/
theorem foldl_qsAppendC_singletons {ps : List (List Char × List Char)}
    {acc : QDict} (hnd : (ps.map Prod.fst).Nodup)
    (hdisj : ∀ kv ∈ ps, qsContainsC acc kv.1 = false) :
    ps.foldl (fun d kv => qsAppendC d kv.1 kv.2) acc =
      acc ++ ps.map (fun kv => (kv.1, [kv.2])) := by
  induction ps generalizing acc with
  | nil => simp
  | cons kv t ih =>
    simp only [List.map_cons, List.nodup_cons] at hnd
    simp only [List.foldl_cons]
    rw [qsAppendC_of_not_contains (hdisj kv (List.mem_cons_self kv t))]
    rw [ih hnd.2]
    · simp
    · intro x hx
      rw [qsContainsC_append]
      have h1 := hdisj x (List.mem_cons_of_mem kv hx)
      rw [h1]
      simp only [Bool.false_or]
      rw [qsContainsC_eq_false_iff]
      simp only [List.map_cons, List.map_nil, List.mem_singleton]
      intro hk
      exact hnd.1 (hk ▸ List.mem_map_of_mem Prod.fst hx)

/-- Re-grouping the merged query yields the loop dict with singleton value
lists. -/
theorem parse_qsC_mergeQueryC {l : LinkDoc} {qs : List Char}
    (hl : linkCleanAmp l = true) :
    parse_qsC (mergeQueryC l qs) =
      (injectUtmsC l (parse_qsC qs)).map (fun e => (e.1, [e.2.headD []])) := by
  have hok := injectUtmsC_ok (l := l) (d := parse_qsC qs) parse_qsC_ok hl
  unfold parse_qsC
  rw [parse_qslC_mergeQueryC hl]
  rw [foldl_qsAppendC_singletons]
  · simp [List.map_map]
    rfl
  · rw [List.map_map]
    exact hok.1
  · intro kv _
    rfl

/-- Lookup through the singleton re-grouping. -/
theorem lookupQ_map_singletons {d : QDict} {k : List Char} :
    lookupQ (d.map (fun e => (e.1, [e.2.headD []]))) k =
      (lookupQ d k).map (fun vs => [vs.headD []]) := by
  induction d with
  | nil => rfl
  | cons e t ih =>
    simp only [List.map_cons, lookupQ]
    by_cases h : e.1 = k
    · rw [if_pos h, if_pos h]
      rfl
    · rw [if_neg h, if_neg h]
      exact ih

/-- After the loop, a truthy attribution key is always present. -/
theorem injectUtmsC_contains_truthy {l : LinkDoc} {d : QDict} {key : String}
    (hkey : key ∈ utmKeys) (ht : optTruthy (linkUtm l key) = true) :
    ∃ vs, lookupQ (injectUtmsC l d) key.data = some vs := by
  cases h : lookupQ d key.data with
  | none => exact ⟨_, injectUtmsC_lookup_absent_truthy hkey h ht⟩
  | some vs => exact ⟨vs, injectUtmsC_lookup_some_pres h⟩

/-- An injection step is the identity when a truthy value implies the key
is already present. -/
theorem injectStep_noop {l : LinkDoc} {d : QDict} {key : String}
    (h : optTruthy (linkUtm l key) = true →
      ∃ vs, lookupQ d key.data = some vs) :
    injectStep l d key = d := by
  cases ht : optTruthy (linkUtm l key) with
  | false => exact injectStep_of_not_truthy ht
  | true =>
    obtain ⟨vs, hvs⟩ := h ht
    exact injectStep_of_lookup_some hvs

/-- The loop is the identity on the re-grouped merged dict. -/
theorem injectUtmsC_noop_on_merged {l : LinkDoc} {qs : List Char}
    (hl : linkCleanAmp l = true) :
    injectUtmsC l (parse_qsC (mergeQueryC l qs)) =
      parse_qsC (mergeQueryC l qs) := by
  have hq := @parse_qsC_mergeQueryC l qs hl
  have hpres : ∀ key : String, key ∈ utmKeys →
      optTruthy (linkUtm l key) = true →
      ∃ vs, lookupQ (parse_qsC (mergeQueryC l qs)) key.data = some vs := by
    intro key hkey ht
    obtain ⟨vs, hvs⟩ := injectUtmsC_contains_truthy (d := parse_qsC qs) hkey ht
    refine ⟨[vs.headD []], ?_⟩
    rw [hq, lookupQ_map_singletons, hvs]
    rfl
  rw [injectUtmsC_unfold]
  rw [injectStep_noop (fun ht => hpres "utm_source" (by simp [utmKeys]) ht)]
  rw [injectStep_noop (fun ht => hpres "utm_medium" (by simp [utmKeys]) ht)]
  rw [injectStep_noop (fun ht => hpres "utm_campaign" (by simp [utmKeys]) ht)]

/-- Serializing the singleton re-grouping reproduces the serialization of
the original dict. -/
theorem urlencodeFirstsC_map_singletons {d : QDict} :
    urlencodeFirstsC (d.map (fun e => (e.1, [e.2.headD []]))) =
      urlencodeFirstsC d := by
  unfold urlencodeFirstsC
  rw [List.map_map]
  rfl

/-- C8: the query merge of redirect_link is idempotent: applying the
parse, inject and re-serialize transformation to its own output changes
nothing; and a target query that already carries utm_source keeps its
(first parsed) value, not the Link value.  The linkCleanAmp hypothesis
marks the identity modelling of the percent encoding layer. -/
theorem merge_idempotent (l : LinkDoc) (qs : String)
    (hl : linkCleanAmp l = true) :
    mergeQueryC l (mergeQueryC l qs.data) = mergeQueryC l qs.data ∧
    (∀ vs, lookupQ (parse_qsC qs.data) "utm_source".data = some vs →
      lookupPairs (parse_qslC (mergeQueryC l qs.data)) "utm_source".data =
        some (vs.headD [])) := by
  constructor
  · show urlencodeFirstsC (injectUtmsC l (parse_qsC (mergeQueryC l qs.data))) = _
    rw [injectUtmsC_noop_on_merged hl, parse_qsC_mergeQueryC hl,
      urlencodeFirstsC_map_singletons]
    rfl
  · intro vs h
    rw [parse_qslC_mergeQueryC hl, lookupPairs_map_firsts,
      injectUtmsC_lookup_some_pres h]
    rfl

/-- C8 witness: a concrete link and the already parameterized target query
utm_source=existing: the merge keeps existing and is idempotent. -/
theorem merge_idempotent_witness :
    linkCleanAmp { slug := "s", utm_source := some "link_value" } = true ∧
    mergeQueryC { slug := "s", utm_source := some "link_value" }
        (mergeQueryC { slug := "s", utm_source := some "link_value" }
          "utm_source=existing".data) =
      mergeQueryC { slug := "s", utm_source := some "link_value" }
        "utm_source=existing".data ∧
    lookupPairs
      (parse_qslC (mergeQueryC { slug := "s", utm_source := some "link_value" }
        "utm_source=existing".data)) "utm_source".data =
      some "existing".data := by
  refine ⟨by decide, ?_, ?_⟩
  · exact (merge_idempotent { slug := "s", utm_source := some "link_value" }
      "utm_source=existing" (by decide)).1
  · have h := (merge_idempotent { slug := "s", utm_source := some "link_value" }
      "utm_source=existing" (by decide)).2 ["existing".data] (by decide)
    exact h.trans (by decide)

/-- C2 (code bug evidence): the single-entity getters raise their 404
HTTPException inside a blanket except Exception clause, which re-raises it
as a 500; a missing product, article or link therefore yields a 500
response whose detail embeds the swallowed 404, not the NotFound answer
the spec states. -/
theorem getters_wrap_missing_as_500 :
    get_product {} "0123456789abcdef01234567" =
      .error ⟨500, "404: Product not found"⟩ ∧
    get_article {} "missing" = .error ⟨500, "404: Article not found"⟩ ∧
    get_link {} "missing" = .error ⟨500, "404: Link not found"⟩ ∧
    (500 : Nat) ≠ 404 := by decide

/-- C3: creating a Link whose slug already exists fails with the 400
duplicate-slug error and leaves the store untouched: no document is
inserted and the existing one is not overwritten. -/
theorem create_link_duplicate_slug (st : Store) (l : LinkIn)
    (h : ∃ d ∈ st.links, d.slug = l.slug) :
    create_link st l = (st, .error ⟨400, "Slug already exists"⟩) := by
  obtain ⟨d0, hd0, hs⟩ := h
  cases hf : st.links.find? (fun d => d.slug = l.slug) with
  | none =>
    exfalso
    have h2 := List.find?_eq_none.mp hf d0 hd0
    simp only [decide_eq_true_eq] at h2
    exact h2 hs
  | some d2 =>
    simp [create_link, hf, catchHTTPElse500]

/-- C3 witness: a one-link store and a second creation under the same
slug. -/
theorem create_link_duplicate_slug_witness :
    create_link { links := [{ slug := "s", target := some "https://x.com/p" }] }
        { slug := "s", target := "https://y.com" } =
      ({ links := [{ slug := "s", target := some "https://x.com/p" }] },
        .error ⟨400, "Slug already exists"⟩) :=
  create_link_duplicate_slug _ _
    ⟨{ slug := "s", target := some "https://x.com/p" }, List.mem_singleton.mpr rfl, rfl⟩

/-- An absent key looks up to nothing. -/
theorem docLookup_eq_none_of_not_contains {d : PyDoc} {k : String}
    (h : docContains d k = false) : docLookup d k = none := by
  induction d with
  | nil => rfl
  | cons e t ih =>
    simp only [docContains, List.any_cons, Bool.or_eq_false_iff,
      decide_eq_false_iff_not] at h
    simp only [docLookup, if_neg h.1]
    exact ih (by simp [docContains, h.2])

/-- A present key looks up to some value. -/
theorem docLookup_isSome_of_contains {d : PyDoc} {k : String}
    (h : docContains d k = true) : ∃ v, docLookup d k = some v := by
  induction d with
  | nil => simp [docContains] at h
  | cons e t ih =>
    by_cases he : e.1 = k
    · exact ⟨e.2, by simp [docLookup, if_pos he]⟩
    · simp only [docContains, List.any_cons, Bool.or_eq_true, decide_eq_true_eq] at h
      rcases h with h | h
      · exact absurd h he
      · obtain ⟨v, hv⟩ := ih h
        exact ⟨v, by simp [docLookup, if_neg he, hv]⟩

/-- Updating a present key then looking it up gives the new value. -/
theorem dictSetFirst_lookup_self {d : PyDoc} {k : String} {v : PyVal} :
    docLookup (dictSetFirst d k v) k = some v := by
  induction d with
  | nil => simp [dictSetFirst, docLookup]
  | cons e t ih =>
    by_cases he : e.1 = k
    · simp [dictSetFirst, if_pos he, docLookup]
    · simp only [dictSetFirst, if_neg he, docLookup, if_neg he]
      exact ih

/-- Updating one key leaves lookups of other keys unchanged. -/
theorem dictSetFirst_lookup_ne {d : PyDoc} {k k2 : String} {v : PyVal}
    (h : k2 ≠ k) :
    docLookup (dictSetFirst d k v) k2 = docLookup d k2 := by
  induction d with
  | nil =>
    simp only [dictSetFirst, docLookup]
    rw [if_neg (fun hh : k = k2 => h hh.symm)]
  | cons e t ih =>
    by_cases he : e.1 = k
    · simp only [dictSetFirst, if_pos he, docLookup]
      rw [if_neg (fun hh : k = k2 => h hh.symm),
        if_neg (by rw [he]; exact fun hh => h hh.symm)]
    · simp only [dictSetFirst, if_neg he, docLookup]
      by_cases he2 : e.1 = k2
      · rw [if_pos he2, if_pos he2]
      · rw [if_neg he2, if_neg he2]
        exact ih

/-- Updating a present key preserves the key sequence. -/
theorem dictSetFirst_keys {d : PyDoc} {k : String} {v : PyVal}
    (h : docContains d k = true) :
    (dictSetFirst d k v).map Prod.fst = d.map Prod.fst := by
  induction d with
  | nil => simp [docContains] at h
  | cons e t ih =>
    by_cases he : e.1 = k
    · simp [dictSetFirst, if_pos he, he]
    · simp only [docContains, List.any_cons, Bool.or_eq_true, decide_eq_true_eq] at h
      rcases h with h | h
      · exact absurd h he
      · simp only [dictSetFirst, if_neg he, List.map_cons]
        rw [ih h]

/-- C9: safe_id maps the identity entry to the string form of its value
and leaves every other field, and the key order, unchanged; a document
without an identity entry is returned as is. -/
theorem safe_id_frame (doc : PyDoc) :
    docLookup (safe_id doc) "_id" =
      (docLookup doc "_id").map (fun v => PyVal.vStr (pyStr v)) ∧
    (∀ k, k ≠ "_id" → docLookup (safe_id doc) k = docLookup doc k) ∧
    (safe_id doc).map Prod.fst = doc.map Prod.fst := by
  unfold safe_id
  by_cases hde : doc = []
  · subst hde
    simp [docLookup]
  · rw [if_neg hde]
    cases hc : docContains doc "_id" with
    | false =>
      simp only [hc, Bool.false_eq_true, if_false]
      refine ⟨?_, ?_, ?_⟩
      · rw [docLookup_eq_none_of_not_contains hc]
        rfl
      · intro k hk
        trivial
      · trivial
    | true =>
      obtain ⟨v0, hv0⟩ := docLookup_isSome_of_contains hc
      simp only [hc, if_true]
      refine ⟨?_, ?_, ?_⟩
      · rw [dictSetFirst_lookup_self, hv0]
        rfl
      · intro k hk
        exact dictSetFirst_lookup_ne hk
      · exact dictSetFirst_keys hc

/-- C9 witness: a concrete document with an ObjectId identity and a title:
the identity becomes its hex string, the title and the key order are
unchanged. -/
theorem safe_id_frame_witness :
    docLookup (safe_id [("_id", PyVal.vOid "0123456789abcdef01234567"),
        ("title", PyVal.vStr "t")]) "_id" =
      some (PyVal.vStr "0123456789abcdef01234567") ∧
    docLookup (safe_id [("_id", PyVal.vOid "0123456789abcdef01234567"),
        ("title", PyVal.vStr "t")]) "title" = some (PyVal.vStr "t") ∧
    (safe_id [("_id", PyVal.vOid "0123456789abcdef01234567"),
        ("title", PyVal.vStr "t")]).map Prod.fst = ["_id", "title"] := by
  have h := safe_id_frame [("_id", PyVal.vOid "0123456789abcdef01234567"),
    ("title", PyVal.vStr "t")]
  exact ⟨h.1.trans (by decide), (h.2.1 "title" (by decide)).trans (by decide),
    h.2.2.trans (by decide)⟩

/-- C7: with the database handle uninitialized (the spec-modelled state of
an unreachable store), the analytics summary succeeds and reports all six
counts as zero instead of failing. -/
theorem analytics_summary_unavailable_zero :
    analytics_summary none = .ok ⟨0, 0, 0, 0, 0, 0⟩ := rfl

/-- C4: for a resolvable slug, a failing click write changes neither the
outcome nor the response of the redirect, and with a usable target the
redirect still succeeds with the resolved URL. -/
theorem redirect_click_failure_isolated (st : Store) (slug : String)
    (req : RequestInfo) (h : get_documents_links st slug 1 ≠ []) :
    (redirect_link true st slug req).2 = (redirect_link false st slug req).2 ∧
    (∀ link rest t, get_documents_links st slug 1 = link :: rest →
      link.target = some t → t ≠ "" →
      (redirect_link true st slug req).2 = .ok (resolveUrl link t)) := by
  cases hg : get_documents_links st slug 1 with
  | nil => exact absurd hg h
  | cons link rest =>
    constructor
    · cases htg : link.target with
      | none => simp [redirect_link, hg, htg]
      | some t =>
        by_cases hte : t = ""
        · simp [redirect_link, hg, htg, hte]
        · simp [redirect_link, hg, htg, hte]
    · intro link2 rest2 t hg2 htg hte
      injection hg2 with h1 h2
      subst h1
      simp [redirect_link, hg, htg, hte]

/-- C4 witness: a one-link store where the click write fails; the redirect
response is identical to the successful-write run and succeeds with the
resolved URL. -/
theorem redirect_click_failure_isolated_witness :
    (redirect_link true { links := [{ slug := "s", target := some "https://x.com/p" }] }
        "s" {}).2 =
      (redirect_link false { links := [{ slug := "s", target := some "https://x.com/p" }] }
        "s" {}).2 ∧
    (redirect_link true { links := [{ slug := "s", target := some "https://x.com/p" }] }
        "s" {}).2 = .ok "https://x.com/p" := by
  have h := redirect_click_failure_isolated
    { links := [{ slug := "s", target := some "https://x.com/p" }] } "s" {} (by decide)
  refine ⟨h.1, ?_⟩
  have h2 := h.2 { slug := "s", target := some "https://x.com/p" } [] "https://x.com/p"
    (by decide) rfl (by decide)
  exact h2.trans (by decide)

/-- C5: resolving an unknown slug yields the 404 not-found error without
touching the store, and a matching Link whose target is missing or empty
yields the 400 invalid-target error; the status codes differ and neither
case returns a redirect. -/
theorem redirect_resolution_failures (st : Store) (slug : String)
    (req : RequestInfo) (cf : Bool) :
    (get_documents_links st slug 1 = [] →
      redirect_link cf st slug req = (st, .error ⟨404, "Link not found"⟩)) ∧
    (∀ link rest, get_documents_links st slug 1 = link :: rest →
      (link.target = none ∨ link.target = some "") →
      (redirect_link cf st slug req).2 = .error ⟨400, "Link target missing"⟩) := by
  constructor
  · intro hg
    simp [redirect_link, hg]
  · intro link rest hg htg
    rcases htg with htg | htg
    · simp [redirect_link, hg, htg]
    · simp [redirect_link, hg, htg]

/-- C5 witness: the empty store gives the 404 branch, a store whose link
has an empty target gives the 400 branch. -/
theorem redirect_resolution_failures_witness :
    redirect_link false {} "s" {} = ({}, .error ⟨404, "Link not found"⟩) ∧
    (redirect_link false { links := [{ slug := "s", target := some "" }] }
        "s" {}).2 = .error ⟨400, "Link target missing"⟩ := by
  refine ⟨(redirect_resolution_failures {} "s" {} false).1 rfl, ?_⟩
  exact (redirect_resolution_failures
      { links := [{ slug := "s", target := some "" }] } "s" {} false).2
    { slug := "s", target := some "" } [] (by decide) (Or.inr rfl)

/-- C10 (implicit): whenever a Link matches the slug, the click document
built from the request is appended to the click collection before the
target is examined, so the click is recorded even when the target is
missing or empty and the request then fails with the 400 error. -/
theorem click_recorded_before_target_check (st : Store) (slug : String)
    (req : RequestInfo) (link : LinkDoc) (rest : List LinkDoc)
    (hg : get_documents_links st slug 1 = link :: rest) :
    (redirect_link false st slug req).1.clicks =
      st.clicks ++ [mkClick slug req] ∧
    ((link.target = none ∨ link.target = some "") →
      (redirect_link false st slug req).2 = .error ⟨400, "Link target missing"⟩ ∧
      (redirect_link false st slug req).1.clicks =
        st.clicks ++ [mkClick slug req]) := by
  have hclick : (redirect_link false st slug req).1.clicks =
      st.clicks ++ [mkClick slug req] := by
    cases htg : link.target with
    | none => simp [redirect_link, hg, htg, create_document_click]
    | some t =>
      by_cases hte : t = ""
      · simp [redirect_link, hg, htg, hte, create_document_click]
      · simp [redirect_link, hg, htg, hte, create_document_click]
  refine ⟨hclick, fun htg => ⟨?_, hclick⟩⟩
  rcases htg with htg | htg
  · simp [redirect_link, hg, htg]
  · simp [redirect_link, hg, htg]

/-- C10 witness: a store whose only link has no target: the click is
appended and the request fails with the 400 error. -/
theorem click_recorded_before_target_check_witness :
    (redirect_link false { links := [{ slug := "s" }] } "s"
        { referer := some "r", user_agent := some "u", client_host := some "h" }).1.clicks =
      [{ link_slug := "s", referrer := some "r", user_agent := some "u",
         ip := some "h" }] ∧
    (redirect_link false { links := [{ slug := "s" }] } "s"
        { referer := some "r", user_agent := some "u", client_host := some "h" }).2 =
      .error ⟨400, "Link target missing"⟩ := by
  have h := click_recorded_before_target_check { links := [{ slug := "s" }] } "s"
    { referer := some "r", user_agent := some "u", client_host := some "h" }
    { slug := "s" } [] (by decide)
  exact ⟨h.1.trans (by decide), (h.2 (Or.inl rfl)).1⟩

/-- A lowercase letter has code between 97 and 122. -/
theorem isLower_toNat {c : Char} (h : c.isLower = true) :
    97 ≤ c.toNat ∧ c.toNat ≤ 122 := by
  simp only [Char.isLower, ge_iff_le, Bool.and_eq_true, decide_eq_true_eq] at h
  exact ⟨UInt32.le_toNat_of_le (by decide) h.1, UInt32.toNat_le_of_le (by decide) h.2⟩

/-- A digit has code between 48 and 57. -/
theorem isDigit_toNat {c : Char} (h : c.isDigit = true) :
    48 ≤ c.toNat ∧ c.toNat ≤ 57 := by
  simp only [Char.isDigit, ge_iff_le, Bool.and_eq_true, decide_eq_true_eq] at h
  exact ⟨UInt32.le_toNat_of_le (by decide) h.1, UInt32.toNat_le_of_le (by decide) h.2⟩

/-- Characters with code at least 14 are not among the removed control
characters. -/
theorem noCtlChar_of_ge {c : Char} (h : 14 ≤ c.toNat) : noCtlChar c = true := by
  unfold noCtlChar
  have h9 : (c == Char.ofNat 9) = false := by
    rw [beq_eq_false_iff_ne]
    intro hh
    rw [hh] at h
    exact absurd h (by decide)
  have h13 : (c == Char.ofNat 13) = false := by
    rw [beq_eq_false_iff_ne]
    intro hh
    rw [hh] at h
    exact absurd h (by decide)
  have h10 : (c == Char.ofNat 10) = false := by
    rw [beq_eq_false_iff_ne]
    intro hh
    rw [hh] at h
    exact absurd h (by decide)
  rw [h9, h13, h10]
  rfl

/-- Each allowed scheme character is printable, differs from the colon, is
fixed by lowercasing and passes the scheme character test. -/
theorem schemeChar_props {c : Char}
    (h : c.isLower = true ∨ c.isDigit = true ∨ c = '+' ∨ c = '-' ∨ c = '.') :
    noCtlChar c = true ∧ c ≠ ':' ∧ c.toLower = c ∧ schemeCharOk c = true := by
  rcases h with h | h | h | h | h
  · obtain ⟨h1, h2⟩ := isLower_toNat h
    refine ⟨noCtlChar_of_ge (by omega), ?_, ?_, ?_⟩
    · intro hh
      rw [hh] at h1
      exact absurd h1 (by decide)
    · simp only [Char.toLower]
      rw [if_neg (by omega)]
    · simp [schemeCharOk, Char.isAlphanum, Char.isAlpha, h]
  · obtain ⟨h1, h2⟩ := isDigit_toNat h
    refine ⟨noCtlChar_of_ge (by omega), ?_, ?_, ?_⟩
    · intro hh
      rw [hh] at h2
      exact absurd h2 (by decide)
    · simp only [Char.toLower]
      rw [if_neg (by omega)]
    · simp [schemeCharOk, Char.isAlphanum, h]
  · subst h
    exact ⟨by decide, by decide, by decide, by decide⟩
  · subst h
    exact ⟨by decide, by decide, by decide, by decide⟩
  · subst h
    exact ⟨by decide, by decide, by decide, by decide⟩

/-- The head of a well-formed scheme survives the leading strip and is a
letter. -/
theorem isLower_head_props {c : Char} (h : c.isLower = true) :
    ¬(c.toNat ≤ 32) ∧ c.isAlpha = true := by
  obtain ⟨h1, _⟩ := isLower_toNat h
  exact ⟨by omega, by simp [Char.isAlpha, h]⟩

/-- Lowercasing is the identity on a well-formed scheme. -/
theorem toLowerC_fix {s : List Char}
    (h : ∀ c ∈ s, c.isLower = true ∨ c.isDigit = true ∨ c = '+' ∨ c = '-' ∨ c = '.') :
    toLowerC s = s := by
  unfold toLowerC
  induction s with
  | nil => rfl
  | cons c t ih =>
    simp only [List.map_cons]
    rw [(schemeChar_props (h c (List.mem_cons_self c t))).2.2.1,
      ih (fun x hx => h x (List.mem_cons_of_mem c hx))]

/-- Filtering with an always-true predicate changes nothing. -/
theorem filter_eq_self_of_all {p : Char → Bool} {l : List Char}
    (h : ∀ c ∈ l, p c = true) : l.filter p = l := by
  induction l with
  | nil => rfl
  | cons c t ih =>
    simp only [List.filter_cons, h c (List.mem_cons_self c t), if_true]
    rw [ih (fun x hx => h x (List.mem_cons_of_mem c hx))]

/-- splitFirstC skips a separator-free prefix. -/
theorem splitFirstC_prefix_skip {sep : Char} {a b : List Char} (h : sep ∉ a) :
    splitFirstC sep (a ++ b) =
      (splitFirstC sep b).map (fun q => (a ++ q.1, q.2)) := by
  induction a with
  | nil =>
    cases hsb : splitFirstC sep b with
    | none => simp [hsb]
    | some q => simp [hsb]
  | cons c t ih =>
    simp only [List.mem_cons, not_or] at h
    simp only [List.cons_append, splitFirstC, if_neg (Ne.symm h.1), List.append_eq]
    rw [ih h.2]
    cases hsb : splitFirstC sep b with
    | none => simp [hsb]
    | some q => simp [hsb]

/-- Inversion of joinC membership. -/
theorem mem_joinC {sep : Char} {ps : List (List Char)} {c : Char}
    (h : c ∈ joinC sep ps) : c = sep ∨ ∃ p ∈ ps, c ∈ p := by
  induction ps with
  | nil => cases h
  | cons x xs ih =>
    cases xs with
    | nil =>
      right
      exact ⟨x, by simp, by simpa [joinC] using h⟩
    | cons y r =>
      simp only [joinC] at h
      rcases List.mem_append.mp h with h2 | h2
      · right
        exact ⟨x, by simp, h2⟩
      · rcases List.mem_cons.mp h2 with h3 | h3
        · exact Or.inl h3
        · rcases ih h3 with h4 | ⟨p, hp, hcp⟩
          · exact Or.inl h4
          · right
            exact ⟨p, List.mem_cons_of_mem _ hp, hcp⟩

/-- Reversing around a distinguished element. -/
theorem reverse_append_cons {α : Type} {a b : List α} {x : α} :
    (a ++ x :: b).reverse = b.reverse ++ x :: a.reverse := by
  simp [List.reverse_append]

/-- The scan stops immediately at a stop character. -/
theorem splitAtFirstOfC_cons_stop {stop : List Char} {c : Char} {t : List Char}
    (h : c ∈ stop) : splitAtFirstOfC stop (c :: t) = ([], c :: t) := by
  simp [splitAtFirstOfC, h]

/-- The scan passes over a stop-free prefix. -/
theorem splitAtFirstOfC_append_no {stop : List Char} {a b : List Char}
    (h : ∀ c ∈ a, c ∉ stop) :
    splitAtFirstOfC stop (a ++ b) =
      (a ++ (splitAtFirstOfC stop b).1, (splitAtFirstOfC stop b).2) := by
  induction a with
  | nil => simp
  | cons c t ih =>
    simp only [List.cons_append, splitAtFirstOfC,
      if_neg (h c (List.mem_cons_self c t)), List.append_eq]
    rw [ih (fun x hx => h x (List.mem_cons_of_mem c hx))]

/-- Membership-bounded predicates compose over cons. -/
theorem all_mem_cons {P : Char → Prop} {x : Char} {a : List Char}
    (hx : P x) (ha : ∀ c ∈ a, P c) : ∀ c ∈ x :: a, P c := by
  intro c hc
  rcases List.mem_cons.mp hc with h | h
  · subst h; exact hx
  · exact ha c h

/-- Membership-bounded predicates compose over append. -/
theorem all_mem_append {P : Char → Prop} {a b : List Char}
    (ha : ∀ c ∈ a, P c) (hb : ∀ c ∈ b, P c) : ∀ c ∈ a ++ b, P c := by
  intro c hc
  rcases List.mem_append.mp hc with h | h
  · exact ha c h
  · exact hb c h

/-- The empty string satisfies every membership-bounded predicate. -/
theorem all_mem_nil {P : Char → Prop} : ∀ c ∈ ([] : List Char), P c := by
  intro c hc
  cases hc

/-- The params split recovers a well-formed path and params pair. -/
theorem splitParamsC_append {P R : List Char} {t : List Char}
    (hP : P = '/' :: t) (hPs : ';' ∉ P) (hRs : '/' ∉ R) :
    splitParamsC (P ++ ';' :: R) = (P, R) := by
  subst hP
  have hmem : '/' ∈ ('/' :: t) ++ ';' :: R := by simp
  unfold splitParamsC
  rw [if_pos hmem, reverse_append_cons]
  have hPm : '/' ∈ ('/' :: t).reverse := by simp
  obtain ⟨pr, hpr⟩ := splitFirstC_isSome_of_mem hPm
  obtain ⟨hPeq, hPna⟩ := splitFirstC_eq_some (by rw [hpr] : splitFirstC '/' (('/' :: t).reverse) = some (pr.1, pr.2))
  have hnm : '/' ∉ R.reverse ++ [';'] := by
    simp only [List.mem_append, List.mem_reverse, List.mem_singleton, not_or]
    exact ⟨hRs, by decide⟩
  have hshape : R.reverse ++ ';' :: ('/' :: t).reverse =
      (R.reverse ++ [';']) ++ ('/' :: t).reverse := by simp
  have hsp : splitFirstC '/' (R.reverse ++ ';' :: ('/' :: t).reverse) =
      some ((R.reverse ++ [';']) ++ pr.1, pr.2) := by
    rw [hshape, splitFirstC_prefix_skip hnm, hpr]
    rfl
  simp only [hsp]
  have hsemi : ';' ∉ pr.1.reverse := by
    intro hx
    apply hPs
    have h2 : ';' ∈ ('/' :: t).reverse := by
      rw [hPeq]
      exact List.mem_append.mpr (Or.inl (List.mem_reverse.mp hx))
    exact List.mem_reverse.mp h2
  have hrev2 : ((R.reverse ++ [';']) ++ pr.1).reverse = pr.1.reverse ++ ';' :: R := by
    simp
  rw [hrev2]
  simp only [splitFirstC_append hsemi]
  have hfinal : pr.2.reverse ++ '/' :: pr.1.reverse = '/' :: t := by
    have h3 : ('/' :: t) = (('/' :: t).reverse).reverse := by simp
    rw [h3, hPeq, reverse_append_cons]
  rw [hfinal]

/-- Assembly form of urlunparse for well-formed components: the result is
the scheme, a colon, a double slash, the netloc, the path with optional
params, the optional query and the optional fragment. -/
theorem urlunparseC_wf {p : URLParts} (hS : p.scheme ≠ []) (hN : p.netloc ≠ [])
    (hP : p.path = [] ∨ ∃ t, p.path = '/' :: t)
    (hPR : p.params = [] ∨ p.path ≠ []) :
    urlunparseC p = p.scheme ++ ':' :: '/' :: '/' ::
      (p.netloc ++ ((if p.params ≠ [] then p.path ++ ';' :: p.params else p.path) ++
       (if p.query = [] then [] else '?' :: p.query) ++
       (if p.fragment = [] then [] else '#' :: p.fragment))) := by
  have hUgood : (if p.params ≠ [] then p.path ++ ';' :: p.params else p.path) = [] ∨
      ∃ u, (if p.params ≠ [] then p.path ++ ';' :: p.params else p.path) = '/' :: u := by
    by_cases hR : p.params = []
    · rw [if_neg (by simpa using hR)]
      rcases hP with h | ⟨t, ht⟩
      · exact Or.inl h
      · exact Or.inr ⟨t, ht⟩
    · rw [if_pos hR]
      rcases hPR with h | h
      · exact absurd h hR
      · rcases hP with h2 | ⟨t, ht⟩
        · exact absurd h2 h
        · rw [ht]
          exact Or.inr ⟨t ++ ';' :: p.params, rfl⟩
  have hu0 : (if (if p.params ≠ [] then p.path ++ ';' :: p.params else p.path) ≠ [] ∧
        (if p.params ≠ [] then p.path ++ ';' :: p.params else p.path).take 1 ≠ ['/']
      then '/' :: (if p.params ≠ [] then p.path ++ ';' :: p.params else p.path)
      else (if p.params ≠ [] then p.path ++ ';' :: p.params else p.path)) =
      (if p.params ≠ [] then p.path ++ ';' :: p.params else p.path) := by
    rcases hUgood with h | ⟨u, h⟩
    · rw [if_neg]
      rintro ⟨h1, _⟩
      exact h1 h
    · rw [if_neg]
      rintro ⟨_, h2⟩
      rw [h] at h2
      exact h2 rfl
  unfold urlunparseC urlunsplitC
  dsimp only
  rw [if_pos (Or.inl hN), hu0, if_pos hS]
  by_cases hQ : p.query = []
  · by_cases hF : p.fragment = []
    · simp [hQ, hF]
    · simp [hQ, hF, List.append_assoc]
  · by_cases hF : p.fragment = []
    · simp [hQ, hF, List.append_assoc]
    · simp [hQ, hF, List.append_assoc]

/-- Evaluation of urlparse on a well-formed assembled URL: the scheme,
netloc, query and fragment are recovered exactly, and the path portion is
handed to the params split exactly as the code does. -/
theorem urlparseC_assembled (c0 : Char) (t0 N U Q F : List Char)
    (hhead : c0.isLower = true)
    (hs_chars : ∀ c ∈ c0 :: t0,
      c.isLower = true ∨ c.isDigit = true ∨ c = '+' ∨ c = '-' ∨ c = '.')
    (hn_chars : ∀ c ∈ N, c ≠ '/' ∧ c ≠ '?' ∧ c ≠ '#' ∧ noCtlChar c = true)
    (hu_head : U = [] ∨ ∃ u, U = '/' :: u)
    (hu_chars : ∀ c ∈ U, c ≠ '?' ∧ c ≠ '#' ∧ noCtlChar c = true)
    (hq_chars : ∀ c ∈ Q, c ≠ '#' ∧ noCtlChar c = true)
    (hf_chars : ∀ c ∈ F, noCtlChar c = true) :
    urlparseC (c0 :: t0 ++ ':' :: '/' :: '/' ::
        (N ++ (U ++ (if Q = [] then [] else '?' :: Q) ++
          (if F = [] then [] else '#' :: F)))) =
      { scheme := c0 :: t0, netloc := N,
        path := (if c0 :: t0 ∈ usesParams ∧ ';' ∈ U then splitParamsC U else (U, [])).1,
        params := (if c0 :: t0 ∈ usesParams ∧ ';' ∈ U then splitParamsC U else (U, [])).2,
        query := Q, fragment := F } := by
  have hscp := fun c hc => schemeChar_props (hs_chars c hc)
  have hcolS : ':' ∉ c0 :: t0 := fun hx => (hscp _ hx).2.1 rfl
  have halpha : (c0.isAlpha && (c0 :: t0).all schemeCharOk) = true := by
    rw [Bool.and_eq_true, List.all_eq_true]
    exact ⟨(isLower_head_props hhead).2, fun c hc => (hscp c hc).2.2.2⟩
  have hlower : toLowerC (c0 :: t0) = c0 :: t0 := toLowerC_fix hs_chars
  have hdrop0 : ¬(c0.toNat ≤ 32) := (isLower_head_props hhead).1
  have hctlS : ∀ c ∈ c0 :: t0, noCtlChar c = true := fun c hc => (hscp c hc).1
  have hctlT : ∀ c ∈ t0, noCtlChar c = true :=
    fun c hc => hctlS c (List.mem_cons_of_mem c0 hc)
  have hctlN : ∀ c ∈ N, noCtlChar c = true := fun c hc => (hn_chars c hc).2.2.2
  have hctlU : ∀ c ∈ U, noCtlChar c = true := fun c hc => (hu_chars c hc).2.2
  have hctlQ : ∀ c ∈ Q, noCtlChar c = true := fun c hc => (hq_chars c hc).2
  have hnstop : ∀ c ∈ N, c ∉ (['/', '?', '#'] : List Char) := by
    intro c hc hx
    obtain ⟨h1, h2, h3, _⟩ := hn_chars c hc
    simp only [List.mem_cons, List.not_mem_nil, or_false] at hx
    rcases hx with hx | hx | hx
    · exact h1 hx
    · exact h2 hx
    · exact h3 hx
  have hUq : '?' ∉ U := fun hx => (hu_chars _ hx).1 rfl
  have hUh : '#' ∉ U := fun hx => (hu_chars _ hx).2.1 rfl
  have hQh : '#' ∉ Q := fun hx => (hq_chars _ hx).1 rfl
  have hAh : '#' ∉ U ++ '?' :: Q := by
    simp only [List.mem_append, List.mem_cons, not_or]
    exact ⟨hUh, by decide, hQh⟩
  by_cases hQe : Q = []
  · subst hQe
    by_cases hFe : F = []
    · subst hFe
      have hin : U ++ (if ([] : List Char) = [] then [] else '?' :: []) ++
          (if ([] : List Char) = [] then [] else '#' :: []) = U := by
        simp
      rw [hin]
      have hU2 : splitAtFirstOfC ['/', '?', '#'] U = ([], U) := by
        rcases hu_head with h | ⟨u, h⟩
        · subst h; rfl
        · subst h; exact splitAtFirstOfC_cons_stop (by decide)
      have hall : ∀ c ∈ c0 :: (t0 ++ ':' :: '/' :: '/' :: (N ++ U)), noCtlChar c = true :=
        all_mem_cons (hctlS c0 (List.mem_cons_self c0 t0))
          (all_mem_append hctlT (all_mem_cons (by decide) (all_mem_cons (by decide)
            (all_mem_cons (by decide) (all_mem_append hctlN hctlU)))))
      have e1 : (c0 :: t0 ++ ':' :: '/' :: '/' :: (N ++ U)).dropWhile
          (fun c => c.toNat ≤ 32) = c0 :: t0 ++ ':' :: '/' :: '/' :: (N ++ U) := by
        rw [List.cons_append, List.dropWhile_cons]
        simp [hdrop0]
      have e2 : (c0 :: t0 ++ ':' :: '/' :: '/' :: (N ++ U)).filter noCtlChar =
          c0 :: t0 ++ ':' :: '/' :: '/' :: (N ++ U) :=
        filter_eq_self_of_all hall
      have e3 : splitFirstC ':' (c0 :: t0 ++ ':' :: '/' :: '/' :: (N ++ U)) =
          some (c0 :: t0, '/' :: '/' :: (N ++ U)) := splitFirstC_append hcolS
      have e6 : splitAtFirstOfC ['/', '?', '#'] (N ++ U) = (N, U) := by
        rw [splitAtFirstOfC_append_no hnstop, hU2]
        simp
      have e7 : splitFirstC '#' U = none := splitFirstC_of_not_mem hUh
      have e8 : splitFirstC '?' U = none := splitFirstC_of_not_mem hUq
      simp only [urlparseC, e1, e2, e3, halpha, if_true, hlower, e6, e7, e8]
    · have hin : U ++ (if ([] : List Char) = [] then [] else '?' :: []) ++
          (if F = [] then [] else '#' :: F) = U ++ '#' :: F := by
        rw [if_pos rfl, if_neg hFe, List.append_nil]
      rw [hin]
      have hU2 : splitAtFirstOfC ['/', '?', '#'] (U ++ '#' :: F) =
          ([], U ++ '#' :: F) := by
        rcases hu_head with h | ⟨u, h⟩
        · subst h
          simp only [List.nil_append]
          exact splitAtFirstOfC_cons_stop (by decide)
        · subst h
          exact splitAtFirstOfC_cons_stop (by decide)
      have hall : ∀ c ∈ c0 :: (t0 ++ ':' :: '/' :: '/' :: (N ++ (U ++ '#' :: F))),
          noCtlChar c = true :=
        all_mem_cons (hctlS c0 (List.mem_cons_self c0 t0))
          (all_mem_append hctlT (all_mem_cons (by decide) (all_mem_cons (by decide)
            (all_mem_cons (by decide) (all_mem_append hctlN
              (all_mem_append hctlU (all_mem_cons (by decide) hf_chars)))))))
      have e1 : (c0 :: t0 ++ ':' :: '/' :: '/' :: (N ++ (U ++ '#' :: F))).dropWhile
          (fun c => c.toNat ≤ 32) =
          c0 :: t0 ++ ':' :: '/' :: '/' :: (N ++ (U ++ '#' :: F)) := by
        rw [List.cons_append, List.dropWhile_cons]
        simp [hdrop0]
      have e2 : (c0 :: t0 ++ ':' :: '/' :: '/' :: (N ++ (U ++ '#' :: F))).filter
          noCtlChar = c0 :: t0 ++ ':' :: '/' :: '/' :: (N ++ (U ++ '#' :: F)) :=
        filter_eq_self_of_all hall
      have e3 : splitFirstC ':' (c0 :: t0 ++ ':' :: '/' :: '/' :: (N ++ (U ++ '#' :: F))) =
          some (c0 :: t0, '/' :: '/' :: (N ++ (U ++ '#' :: F))) :=
        splitFirstC_append hcolS
      have e6 : splitAtFirstOfC ['/', '?', '#'] (N ++ (U ++ '#' :: F)) =
          (N, U ++ '#' :: F) := by
        rw [splitAtFirstOfC_append_no hnstop, hU2]
        simp
      have e7 : splitFirstC '#' (U ++ '#' :: F) = some (U, F) :=
        splitFirstC_append hUh
      have e8 : splitFirstC '?' U = none := splitFirstC_of_not_mem hUq
      simp only [urlparseC, e1, e2, e3, halpha, if_true, hlower, e6, e7, e8]
  · by_cases hFe : F = []
    · subst hFe
      have hin : U ++ (if Q = [] then [] else '?' :: Q) ++
          (if ([] : List Char) = [] then [] else '#' :: []) = U ++ '?' :: Q := by
        rw [if_neg hQe, if_pos rfl, List.append_nil]
      rw [hin]
      have hU2 : splitAtFirstOfC ['/', '?', '#'] (U ++ '?' :: Q) =
          ([], U ++ '?' :: Q) := by
        rcases hu_head with h | ⟨u, h⟩
        · subst h
          simp only [List.nil_append]
          exact splitAtFirstOfC_cons_stop (by decide)
        · subst h
          exact splitAtFirstOfC_cons_stop (by decide)
      have hall : ∀ c ∈ c0 :: (t0 ++ ':' :: '/' :: '/' :: (N ++ (U ++ '?' :: Q))),
          noCtlChar c = true :=
        all_mem_cons (hctlS c0 (List.mem_cons_self c0 t0))
          (all_mem_append hctlT (all_mem_cons (by decide) (all_mem_cons (by decide)
            (all_mem_cons (by decide) (all_mem_append hctlN
              (all_mem_append hctlU (all_mem_cons (by decide) hctlQ)))))))
      have e1 : (c0 :: t0 ++ ':' :: '/' :: '/' :: (N ++ (U ++ '?' :: Q))).dropWhile
          (fun c => c.toNat ≤ 32) =
          c0 :: t0 ++ ':' :: '/' :: '/' :: (N ++ (U ++ '?' :: Q)) := by
        rw [List.cons_append, List.dropWhile_cons]
        simp [hdrop0]
      have e2 : (c0 :: t0 ++ ':' :: '/' :: '/' :: (N ++ (U ++ '?' :: Q))).filter
          noCtlChar = c0 :: t0 ++ ':' :: '/' :: '/' :: (N ++ (U ++ '?' :: Q)) :=
        filter_eq_self_of_all hall
      have e3 : splitFirstC ':' (c0 :: t0 ++ ':' :: '/' :: '/' :: (N ++ (U ++ '?' :: Q))) =
          some (c0 :: t0, '/' :: '/' :: (N ++ (U ++ '?' :: Q))) :=
        splitFirstC_append hcolS
      have e6 : splitAtFirstOfC ['/', '?', '#'] (N ++ (U ++ '?' :: Q)) =
          (N, U ++ '?' :: Q) := by
        rw [splitAtFirstOfC_append_no hnstop, hU2]
        simp
      have e7 : splitFirstC '#' (U ++ '?' :: Q) = none := splitFirstC_of_not_mem hAh
      have e8 : splitFirstC '?' (U ++ '?' :: Q) = some (U, Q) :=
        splitFirstC_append hUq
      simp only [urlparseC, e1, e2, e3, halpha, if_true, hlower, e6, e7, e8]
    · have hin : U ++ (if Q = [] then [] else '?' :: Q) ++
          (if F = [] then [] else '#' :: F) = U ++ '?' :: (Q ++ '#' :: F) := by
        rw [if_neg hQe, if_neg hFe]
        simp
      rw [hin]
      have hU2 : splitAtFirstOfC ['/', '?', '#'] (U ++ '?' :: (Q ++ '#' :: F)) =
          ([], U ++ '?' :: (Q ++ '#' :: F)) := by
        rcases hu_head with h | ⟨u, h⟩
        · subst h
          simp only [List.nil_append]
          exact splitAtFirstOfC_cons_stop (by decide)
        · subst h
          exact splitAtFirstOfC_cons_stop (by decide)
      have hallF : ∀ c ∈ Q ++ '#' :: F, noCtlChar c = true :=
        all_mem_append hctlQ (all_mem_cons (by decide) hf_chars)
      have hall : ∀ c ∈ c0 :: (t0 ++ ':' :: '/' :: '/' ::
          (N ++ (U ++ '?' :: (Q ++ '#' :: F)))), noCtlChar c = true :=
        all_mem_cons (hctlS c0 (List.mem_cons_self c0 t0))
          (all_mem_append hctlT (all_mem_cons (by decide) (all_mem_cons (by decide)
            (all_mem_cons (by decide) (all_mem_append hctlN
              (all_mem_append hctlU (all_mem_cons (by decide) hallF)))))))
      have e1 : (c0 :: t0 ++ ':' :: '/' :: '/' ::
          (N ++ (U ++ '?' :: (Q ++ '#' :: F)))).dropWhile (fun c => c.toNat ≤ 32) =
          c0 :: t0 ++ ':' :: '/' :: '/' :: (N ++ (U ++ '?' :: (Q ++ '#' :: F))) := by
        rw [List.cons_append, List.dropWhile_cons]
        simp [hdrop0]
      have e2 : (c0 :: t0 ++ ':' :: '/' :: '/' ::
          (N ++ (U ++ '?' :: (Q ++ '#' :: F)))).filter noCtlChar =
          c0 :: t0 ++ ':' :: '/' :: '/' :: (N ++ (U ++ '?' :: (Q ++ '#' :: F))) :=
        filter_eq_self_of_all hall
      have e3 : splitFirstC ':' (c0 :: t0 ++ ':' :: '/' :: '/' ::
          (N ++ (U ++ '?' :: (Q ++ '#' :: F)))) =
          some (c0 :: t0, '/' :: '/' :: (N ++ (U ++ '?' :: (Q ++ '#' :: F)))) :=
        splitFirstC_append hcolS
      have e6 : splitAtFirstOfC ['/', '?', '#'] (N ++ (U ++ '?' :: (Q ++ '#' :: F))) =
          (N, U ++ '?' :: (Q ++ '#' :: F)) := by
        rw [splitAtFirstOfC_append_no hnstop, hU2]
        simp
      have e7 : splitFirstC '#' (U ++ '?' :: (Q ++ '#' :: F)) =
          some (U ++ '?' :: Q, F) := by
        have hsh : U ++ '?' :: (Q ++ '#' :: F) = (U ++ '?' :: Q) ++ '#' :: F := by
          simp
        rw [hsh]
        exact splitFirstC_append hAh
      have e8 : splitFirstC '?' (U ++ '?' :: Q) = some (U, Q) :=
        splitFirstC_append hUq
      simp only [urlparseC, e1, e2, e3, halpha, if_true, hlower, e6, e7, e8]

/-- Every character of the urlencode serialization is an ampersand, an
equals sign, or a character of some entry of the dict. -/
theorem mem_entry_of_mem_urlencodeFirstsC {d : QDict} {c : Char}
    (h : c ∈ urlencodeFirstsC d) :
    c = '&' ∨ c = '=' ∨ ∃ e ∈ d, c ∈ e.1 ∨ c ∈ e.2.headD [] := by
  unfold urlencodeFirstsC at h
  rcases mem_joinC h with h | ⟨p, hp, hcp⟩
  · exact Or.inl h
  · obtain ⟨e, he, hpe⟩ := List.mem_map.mp hp
    subst hpe
    rcases List.mem_append.mp hcp with h2 | h2
    · exact Or.inr (Or.inr ⟨e, he, Or.inl h2⟩)
    · rcases List.mem_cons.mp h2 with h3 | h3
      · exact Or.inr (Or.inl h3)
      · exact Or.inr (Or.inr ⟨e, he, Or.inr h3⟩)

/-- An entry of the dict after assignment is an old entry or the assigned
pair. -/
theorem mem_qsSetC {d : QDict} {k : List Char} {vs : List (List Char)}
    {e : List Char × List (List Char)} (h : e ∈ qsSetC d k vs) :
    e ∈ d ∨ e = (k, vs) := by
  induction d with
  | nil =>
    simp only [qsSetC, List.mem_singleton] at h
    exact Or.inr h
  | cons a t ih =>
    by_cases ha : a.1 = k
    · simp only [qsSetC, if_pos ha, List.mem_cons] at h ⊢
      rcases h with h | h
      · exact Or.inr h
      · exact Or.inl (Or.inr h)
    · simp only [qsSetC, if_neg ha, List.mem_cons] at h ⊢
      rcases h with h | h
      · exact Or.inl (Or.inl h)
      · rcases ih h with h2 | h2
        · exact Or.inl (Or.inr h2)
        · exact Or.inr h2

/-- An entry after one injection step is an old entry or the injected
singleton pair for that key. -/
theorem mem_injectStep {l : LinkDoc} {d : QDict} {key : String}
    {e : List Char × List (List Char)} (h : e ∈ injectStep l d key) :
    e ∈ d ∨ e = (key.data, [((linkUtm l key).getD "").data]) := by
  unfold injectStep at h
  split at h
  · exact mem_qsSetC h
  · exact Or.inl h

/-- An entry after the whole loop is an old entry or an injected pair of
one of the three attribution keys. -/
theorem mem_injectUtmsC {l : LinkDoc} {d : QDict}
    {e : List Char × List (List Char)} (h : e ∈ injectUtmsC l d) :
    e ∈ d ∨ ∃ key ∈ utmKeys,
      e = (key.data, [((linkUtm l key).getD "").data]) := by
  rw [injectUtmsC_unfold] at h
  rcases mem_injectStep h with h | h
  · rcases mem_injectStep h with h | h
    · rcases mem_injectStep h with h | h
      · exact Or.inl h
      · exact Or.inr ⟨"utm_source", by simp [utmKeys], h⟩
    · exact Or.inr ⟨"utm_medium", by simp [utmKeys], h⟩
  · exact Or.inr ⟨"utm_campaign", by simp [utmKeys], h⟩

/-- Grouping one pair preserves a character predicate over keys and
values. -/
theorem qsAppendC_entry_chars {P : Char → Prop} {d : QDict} {k v : List Char}
    (hd : ∀ e ∈ d, (∀ c ∈ e.1, P c) ∧ ∀ w ∈ e.2, ∀ c ∈ w, P c)
    (hk : ∀ c ∈ k, P c) (hv : ∀ c ∈ v, P c) :
    ∀ e ∈ qsAppendC d k v, (∀ c ∈ e.1, P c) ∧ ∀ w ∈ e.2, ∀ c ∈ w, P c := by
  induction d with
  | nil =>
    intro e he
    simp only [qsAppendC, List.mem_singleton] at he
    subst he
    refine ⟨hk, ?_⟩
    intro w hw
    simp only [List.mem_singleton] at hw
    subst hw
    exact hv
  | cons a t ih =>
    intro e he
    by_cases ha : a.1 = k
    · simp only [qsAppendC, if_pos ha, List.mem_cons] at he
      rcases he with h | h
      · subst h
        have hda := hd a (List.mem_cons_self a t)
        refine ⟨hda.1, ?_⟩
        intro w hw
        rcases List.mem_append.mp hw with h2 | h2
        · exact hda.2 w h2
        · simp only [List.mem_singleton] at h2
          subst h2
          exact hv
      · exact hd e (List.mem_cons_of_mem a h)
    · simp only [qsAppendC, if_neg ha, List.mem_cons] at he
      rcases he with h | h
      · subst h
        exact hd e (List.mem_cons_self e t)
      · exact ih (fun x hx => hd x (List.mem_cons_of_mem a hx)) e h

/-- The grouping fold preserves a character predicate over keys and
values. -/
theorem foldl_qsAppendC_entry_chars {P : Char → Prop}
    {ps : List (List Char × List Char)} {d : QDict}
    (hps : ∀ kv ∈ ps, (∀ c ∈ kv.1, P c) ∧ ∀ c ∈ kv.2, P c)
    (hd : ∀ e ∈ d, (∀ c ∈ e.1, P c) ∧ ∀ w ∈ e.2, ∀ c ∈ w, P c) :
    ∀ e ∈ ps.foldl (fun d kv => qsAppendC d kv.1 kv.2) d,
      (∀ c ∈ e.1, P c) ∧ ∀ w ∈ e.2, ∀ c ∈ w, P c := by
  induction ps generalizing d with
  | nil => exact hd
  | cons kv t ih =>
    intro e he
    have hkv := hps kv (List.mem_cons_self kv t)
    exact ih (fun x hx => hps x (List.mem_cons_of_mem kv hx))
      (qsAppendC_entry_chars hd hkv.1 hkv.2) e he

/-- Every character of a parse_qs entry comes from the query string. -/
theorem parse_qsC_entry_chars {qs : List Char} :
    ∀ e ∈ parse_qsC qs, (∀ c ∈ e.1, c ∈ qs) ∧ ∀ v ∈ e.2, ∀ c ∈ v, c ∈ qs := by
  unfold parse_qsC
  refine foldl_qsAppendC_entry_chars (fun kv hkv => parse_qslC_chars hkv) ?_
  intro e he
  cases he

/-- The characters of any attribution value read through linkUtm are among
the characters of the three link attribution values. -/
theorem linkUtm_getD_sub {l : LinkDoc} {key : String} (hk : key ∈ utmKeys) :
    ∀ c ∈ ((linkUtm l key).getD "").data, c ∈ utmVals l := by
  have h1 : linkUtm l "utm_source" = l.utm_source := rfl
  have h2 : linkUtm l "utm_medium" = l.utm_medium := rfl
  have h3 : linkUtm l "utm_campaign" = l.utm_campaign := rfl
  rcases (by simpa [utmKeys] using hk :
      key = "utm_source" ∨ key = "utm_medium" ∨ key = "utm_campaign")
    with h | h | h
  · subst h
    intro c hc
    rw [h1] at hc
    simp only [utmVals, List.mem_append]
    exact Or.inl (Or.inl hc)
  · subst h
    intro c hc
    rw [h2] at hc
    simp only [utmVals, List.mem_append]
    exact Or.inl (Or.inr hc)
  · subst h
    intro c hc
    rw [h3] at hc
    simp only [utmVals, List.mem_append]
    exact Or.inr hc

/-- Every character of the merged query comes from the original query, an
attribution value of the link, or the fixed key and separator characters of
the loop. -/
theorem mergeQueryC_chars {l : LinkDoc} {qs : List Char} {c : Char}
    (h : c ∈ mergeQueryC l qs) :
    c ∈ qs ∨ c ∈ utmVals l ∨
      c ∈ ("utm_sourceutm_mediumutm_campaign=&" : String).data := by
  have hsplit : ("utm_sourceutm_mediumutm_campaign=&" : String).data =
      ("utm_source" : String).data ++ ("utm_medium" : String).data ++
        ("utm_campaign" : String).data ++ ("=&" : String).data := rfl
  unfold mergeQueryC at h
  rcases mem_entry_of_mem_urlencodeFirstsC h with h | h | ⟨e, he, hce⟩
  · subst h
    right; right
    decide
  · subst h
    right; right
    decide
  · rcases mem_injectUtmsC he with h2 | ⟨key, hk, h2⟩
    · have hqc := parse_qsC_entry_chars e h2
      rcases hce with hce | hce
      · exact Or.inl (hqc.1 c hce)
      · cases h3 : e.2 with
        | nil =>
          rw [h3] at hce
          cases hce
        | cons v vs =>
          rw [h3] at hce
          exact Or.inl (hqc.2 v (by rw [h3]; exact List.mem_cons_self v vs) c hce)
    · subst h2
      rcases hce with hce | hce
      · right; right
        rw [hsplit]
        rcases (by simpa [utmKeys] using hk :
            key = "utm_source" ∨ key = "utm_medium" ∨ key = "utm_campaign")
          with h4 | h4 | h4 <;> subst h4 <;>
          simp only [List.mem_append]
        · exact Or.inl (Or.inl (Or.inl hce))
        · exact Or.inl (Or.inl (Or.inr hce))
        · exact Or.inl (Or.inr hce)
      · right; left
        exact linkUtm_getD_sub hk c (by simpa using hce)

/-- A fully clean link is ampersand clean. -/
theorem linkCleanAmp_of_full {l : LinkDoc} (hl : linkCleanFull l = true) :
    linkCleanAmp l = true := by
  have key : ∀ o : Option String, optCleanFull o = true → optNoAmp o = true := by
    intro o ho
    cases o with
    | none => rfl
    | some s =>
      simp only [optCleanFull] at ho
      rw [List.all_eq_true] at ho
      simp only [optNoAmp, decide_eq_true_eq]
      intro hmem
      have h2 := ho '&' hmem
      rw [Bool.and_eq_true] at h2
      exact absurd h2.2 (by decide)
  unfold linkCleanFull at hl
  rw [Bool.and_eq_true, Bool.and_eq_true] at hl
  unfold linkCleanAmp
  rw [key l.utm_source hl.1.1, key l.utm_medium hl.1.2, key l.utm_campaign hl.2]
  rfl

/-- The attribution values of a fully clean link avoid the hash and the
removed control characters. -/
theorem utmVals_clean {l : LinkDoc} (hl : linkCleanFull l = true) :
    ∀ c ∈ utmVals l, c ≠ '#' ∧ noCtlChar c = true := by
  have key : ∀ o : Option String, optCleanFull o = true →
      ∀ c ∈ (o.getD "").data, c ≠ '#' ∧ noCtlChar c = true := by
    intro o ho c hc
    cases o with
    | none => cases hc
    | some s =>
      simp only [optCleanFull] at ho
      rw [List.all_eq_true] at ho
      simp only [Option.getD] at hc
      have h2 := ho c hc
      rw [Bool.and_eq_true] at h2
      refine ⟨?_, h2.1⟩
      intro hc2
      subst hc2
      exact absurd h2.2 (by decide)
  unfold linkCleanFull at hl
  rw [Bool.and_eq_true, Bool.and_eq_true] at hl
  intro c hc
  simp only [utmVals, List.mem_append] at hc
  rcases hc with (hc | hc) | hc
  · exact key l.utm_source hl.1.1 c hc
  · exact key l.utm_medium hl.1.2 c hc
  · exact key l.utm_campaign hl.2 c hc

/-- For a fully clean link, merging keeps a hash free, control free query
hash free and control free. -/
theorem mergeQueryC_clean {l : LinkDoc} {qs : List Char}
    (hl : linkCleanFull l = true)
    (hq : ∀ c ∈ qs, c ≠ '#' ∧ noCtlChar c = true) :
    ∀ c ∈ mergeQueryC l qs, c ≠ '#' ∧ noCtlChar c = true := by
  intro c hc
  rcases mergeQueryC_chars hc with h | h | h
  · exact hq c h
  · exact utmVals_clean hl c h
  · exact (by decide : ∀ c2 ∈ ("utm_sourceutm_mediumutm_campaign=&" : String).data,
      c2 ≠ '#' ∧ noCtlChar c2 = true) c h

/-- Unparse then reparse is the identity on well-formed components. -/
theorem urlparse_unparse_roundtrip {p : URLParts} (hwf : WFParts p) :
    urlparseC (urlunparseC p) = p := by
  obtain ⟨hS0, hS1, hS2, hN0, hN1, hP0, hP1, hR1, hR2, hQ1, hF1⟩ := hwf
  obtain ⟨c0, t0, hsch⟩ : ∃ c0 t0, p.scheme = c0 :: t0 := by
    cases h : p.scheme with
    | nil => exact absurd h hS0
    | cons a b => exact ⟨a, b, rfl⟩
  have hPshape : p.path = [] ∨ ∃ t, p.path = '/' :: t := by
    cases hpp : p.path with
    | nil => exact Or.inl rfl
    | cons a t =>
      rcases hP0 with h | h
      · rw [hpp] at h
        exact absurd h (by simp)
      · rw [hpp] at h
        simp only [List.headD_cons] at h
        subst h
        exact Or.inr ⟨t, rfl⟩
  have hPR2 : p.params = [] ∨ p.path ≠ [] := by
    rcases hR2 with h | h
    · exact Or.inl h
    · exact Or.inr h.1
  have hassm := urlunparseC_wf hS0 hN0 hPshape hPR2
  set U := if p.params ≠ [] then p.path ++ ';' :: p.params else p.path with hU
  have hUhead : U = [] ∨ ∃ u, U = '/' :: u := by
    rw [hU]
    by_cases hpar : p.params = []
    · rw [if_neg (by simpa using hpar)]
      exact hPshape
    · rw [if_pos hpar]
      rcases hPshape with h | ⟨t, ht⟩
      · rcases hR2 with h2 | h2
        · exact absurd h2 hpar
        · exact absurd h h2.1
      · rw [ht]
        exact Or.inr ⟨t ++ ';' :: p.params, rfl⟩
  have hUchars : ∀ c ∈ U, c ≠ '?' ∧ c ≠ '#' ∧ noCtlChar c = true := by
    rw [hU]
    by_cases hpar : p.params = []
    · rw [if_neg (by simpa using hpar)]
      intro c hc
      obtain ⟨h1, h2, _, h4⟩ := hP1 c hc
      exact ⟨h1, h2, h4⟩
    · rw [if_pos hpar]
      intro c hc
      rcases List.mem_append.mp hc with h | h
      · obtain ⟨h1, h2, _, h4⟩ := hP1 c h
        exact ⟨h1, h2, h4⟩
      · rcases List.mem_cons.mp h with h | h
        · subst h
          exact ⟨by decide, by decide, by decide⟩
        · obtain ⟨h1, h2, _, h4⟩ := hR1 c h
          exact ⟨h1, h2, h4⟩
  have hhead : c0.isLower = true := by
    rw [hsch] at hS1
    simpa using hS1
  have hs2 : ∀ c ∈ c0 :: t0,
      c.isLower = true ∨ c.isDigit = true ∨ c = '+' ∨ c = '-' ∨ c = '.' := by
    rw [hsch] at hS2
    exact hS2
  rw [hassm, hsch]
  rw [urlparseC_assembled c0 t0 p.netloc U p.query p.fragment hhead hs2 hN1
    hUhead hUchars hQ1 hF1]
  have hsplit : (if c0 :: t0 ∈ usesParams ∧ ';' ∈ U then splitParamsC U
      else (U, [])) = (p.path, p.params) := by
    by_cases hpar : p.params = []
    · have hUe : U = p.path := by
        rw [hU, if_neg (by simpa using hpar)]
      have hcond : ¬(c0 :: t0 ∈ usesParams ∧ ';' ∈ U) := by
        rintro ⟨-, hsemi⟩
        rw [hUe] at hsemi
        exact (hP1 _ hsemi).2.2.1 rfl
      rw [if_neg hcond, hUe, hpar]
    · obtain ⟨hpne, husp⟩ : p.path ≠ [] ∧ p.scheme ∈ usesParams := by
        rcases hR2 with h | h
        · exact absurd h hpar
        · exact h
      obtain ⟨t, ht⟩ : ∃ t, p.path = '/' :: t := by
        rcases hPshape with h | h
        · exact absurd h hpne
        · exact h
      have hUe : U = p.path ++ ';' :: p.params := by
        rw [hU, if_pos hpar]
      have hcond : c0 :: t0 ∈ usesParams ∧ ';' ∈ U := by
        constructor
        · rw [← hsch]
          exact husp
        · rw [hUe]
          exact List.mem_append.mpr (Or.inr (List.mem_cons_self _ _))
      rw [if_pos hcond, hUe]
      exact splitParamsC_append ht (fun hx => (hP1 _ hx).2.2.1 rfl)
        (fun hx => (hR1 _ hx).2.2.1 rfl)
  rw [hsplit, ← hsch]

/-- C6: for every link whose target URL parses into well-formed components
(and whose attribution values stay below the percent-encoding layer that
the embedding models as the identity), the resolved redirect URL preserves
the scheme, netloc, path, params and fragment of the target exactly and
replaces only the query with the merged query; the re-serialized query
carries exactly one value per parameter name; and every parameter name of
the target query keeps exactly its first original value. -/
theorem resolve_preserves_components (l : LinkDoc) (target : String)
    (hwf : WFParts (urlparseC target.data))
    (hclean : linkCleanFull l = true) :
    urlparseC (resolveUrl l target).data =
      { urlparseC target.data with
        query := mergeQueryC l (urlparseC target.data).query } ∧
    ((parse_qslC (urlparseC (resolveUrl l target).data).query).map
      Prod.fst).Nodup ∧
    ∀ k vs, lookupQ (parse_qsC (urlparseC target.data).query) k = some vs →
      lookupPairs (parse_qslC (urlparseC (resolveUrl l target).data).query) k =
        some (vs.headD []) := by
  have hamp : linkCleanAmp l = true := linkCleanAmp_of_full hclean
  obtain ⟨hS0, hS1, hS2, hN0, hN1, hP0, hP1, hR1, hR2, hQ1, hF1⟩ := hwf
  have hq2 : ∀ c ∈ mergeQueryC l (urlparseC target.data).query,
      c ≠ '#' ∧ noCtlChar c = true :=
    mergeQueryC_clean hclean hQ1
  have hwf2 : WFParts { urlparseC target.data with
      query := mergeQueryC l (urlparseC target.data).query } :=
    ⟨hS0, hS1, hS2, hN0, hN1, hP0, hP1, hR1, hR2, hq2, hF1⟩
  have hres : (resolveUrl l target).data =
      urlunparseC { urlparseC target.data with
        query := mergeQueryC l (urlparseC target.data).query } := rfl
  have hmain : urlparseC (resolveUrl l target).data =
      { urlparseC target.data with
        query := mergeQueryC l (urlparseC target.data).query } := by
    rw [hres]
    exact urlparse_unparse_roundtrip hwf2
  have hre := @parse_qslC_mergeQueryC l (urlparseC target.data).query hamp
  refine ⟨hmain, ?_, ?_⟩
  · rw [hmain]
    dsimp only
    rw [hre, List.map_map]
    have hfg : (Prod.fst ∘ fun e : List Char × List (List Char) =>
        (e.1, e.2.headD [])) = (Prod.fst : List Char × List (List Char) →
        List Char) := rfl
    rw [hfg]
    exact (injectUtmsC_ok parse_qsC_ok hamp).1
  · intro k vs h
    rw [hmain]
    dsimp only
    rw [hre, lookupPairs_map_firsts, injectUtmsC_lookup_some_pres h]
    rfl

/-- C6 witness at a concrete link and target. -/
theorem resolve_preserves_components_witness :
    WFParts (urlparseC ("https://x.com/p?b=1&b=2" : String).data) ∧
    linkCleanFull
      ⟨"s", none, none, some "news", some "blog", some "mail", none⟩ = true ∧
    (urlparseC (resolveUrl
        ⟨"s", none, none, some "news", some "blog", some "mail", none⟩
        "https://x.com/p?b=1&b=2").data =
      { urlparseC ("https://x.com/p?b=1&b=2" : String).data with
        query := mergeQueryC
          ⟨"s", none, none, some "news", some "blog", some "mail", none⟩
          (urlparseC ("https://x.com/p?b=1&b=2" : String).data).query } ∧
    ((parse_qslC (urlparseC (resolveUrl
        ⟨"s", none, none, some "news", some "blog", some "mail", none⟩
        "https://x.com/p?b=1&b=2").data).query).map Prod.fst).Nodup ∧
    ∀ k vs, lookupQ (parse_qsC
        (urlparseC ("https://x.com/p?b=1&b=2" : String).data).query) k =
          some vs →
      lookupPairs (parse_qslC (urlparseC (resolveUrl
          ⟨"s", none, none, some "news", some "blog", some "mail", none⟩
          "https://x.com/p?b=1&b=2").data).query) k =
        some (vs.headD [])) :=
  ⟨by decide, by decide,
    resolve_preserves_components
      ⟨"s", none, none, some "news", some "blog", some "mail", none⟩
      "https://x.com/p?b=1&b=2" (by decide) (by decide)⟩
